import Mathlib

/-!
Shallow embedding of the metadata indexing and query engine of
`src/squirrel/squirrel.py`: the durable catalog (`Database`), the ephemeral
`Selection` overlays and the time-bucketed `Squirrel` index.  Tables of the
SQLite store are modelled as lists of row records in row order; SQLite
`rowid`s are modelled by a monotone fresh counter (the source relies only on
rowids being unique identifiers of rows).  Python floats are modelled as
rationals and SQL NULL as `Option`.  Fallible statements (`IntegrityError`
on a primary-key violation) return `Except`.
-/

namespace SquirrelDB

/-- Modelled from the spec: `pyrocko.squirrel.model.tsplit` (the `model`
module is not under `src/`): an absolute time is split into integer seconds
plus a sub-second offset in `[0,1)`. -/
def tsplit (t : ℚ) : ℤ × ℚ := (⌊t⌋, t - (⌊t⌋ : ℚ))

/-- Modelled from the spec: a nut's `kscale` is the smallest index into the
ascending ladder of duration edges whose edge exceeds `tmax − tmin`, with one
extra overflow bucket (index `edges.length`) for durations exceeding all
edges (`model.tscale_edges` and the `kscale` computation live in the missing
`model` module).  The ladder is kept as an explicit parameter `edges`
throughout; no theorem below depends on its concrete values. -/
def kscaleOf (edges : List ℤ) (duration : ℚ) : ℕ :=
  match edges.findIdx? (fun e => decide (duration < (e : ℚ))) with
  | some k => k
  | none => edges.length

/-- An input metadata record as consumed by `Database.dig` (the fields of
`model.Nut` that the code under `src/` reads; `kscale` is derived from the
time span, see `kscaleOf`). -/
structure Nut where
  file_name : String
  file_format : String
  file_mtime : Option ℚ
  file_segment : ℤ
  file_element : ℤ
  kind : String
  codes : String
  tmin_seconds : ℤ
  tmin_offset : ℚ
  tmax_seconds : ℤ
  tmax_offset : ℚ
  deltat : ℚ
deriving DecidableEq, Repr

def Nut.duration (n : Nut) : ℚ :=
  ((n.tmax_seconds : ℚ) + n.tmax_offset) - ((n.tmin_seconds : ℚ) + n.tmin_offset)

/-- A row of the `files` table (`file_name text PRIMARY KEY, file_format,
file_mtime`). -/
structure FilesRow where
  rowid : ℕ
  file_name : String
  file_format : String
  file_mtime : Option ℚ
deriving DecidableEq, Repr

/-- A row of the `nuts` table (also of a squirrel's private nuts table, which
has the same columns). -/
structure NutsRow where
  file_id : ℕ
  file_segment : ℤ
  file_element : ℤ
  kind_codes_id : Option ℕ
  tmin_seconds : ℤ
  tmin_offset : ℚ
  tmax_seconds : ℤ
  tmax_offset : ℚ
  deltat : ℚ
  kscale : ℕ
deriving DecidableEq, Repr

/-- A row of the `kind_codes` table (`kind, codes, count; PRIMARY KEY (kind,
codes)`). -/
structure KindCodesRow where
  rowid : ℕ
  kind : String
  codes : String
  count : ℤ
deriving DecidableEq, Repr

/-- The persistent state of a `Database`. -/
structure DB where
  files : List FilesRow
  nuts : List NutsRow
  kind_codes : List KindCodesRow
  next_file_rowid : ℕ
  next_kc_rowid : ℕ
deriving DecidableEq, Repr

/-- A freshly opened (`:memory:`) store after `_initialize_db`. -/
def emptyDB : DB := ⟨[], [], [], 0, 0⟩

inductive SqErr where
  | integrityError
deriving DecidableEq, Repr

instance {e a : Type} [DecidableEq e] [DecidableEq a] : DecidableEq (Except e a) := fun x y =>
  match x, y with
  | .ok u, .ok v =>
    if h : u = v then .isTrue (by rw [h]) else .isFalse (by simp [h])
  | .error u, .error v =>
    if h : u = v then .isTrue (by rw [h]) else .isFalse (by simp [h])
  | .ok _, .error _ => .isFalse (by simp)
  | .error _, .ok _ => .isFalse (by simp)

/-! ### `Database.dig` -/

def kcKey (n : Nut) : String × String := (n.kind, n.codes)

def fileKey (n : Nut) : String × String × Option ℚ := (n.file_name, n.file_format, n.file_mtime)

/-- One step of `defaultdict(list)` grouping: append `n` to the bucket of key
`k`, creating the bucket at the end on first occurrence (Python dicts and
`Counter` preserve key insertion order). -/
def insertGroup {α : Type} [DecidableEq α] (acc : List (α × List Nut)) (k : α) (n : Nut) :
    List (α × List Nut) :=
  match acc with
  | [] => [(k, [n])]
  | (k', ns) :: rest =>
    if k' = k then (k', ns ++ [n]) :: rest else (k', ns) :: insertGroup rest k n

/-- The `by_files` grouping of `dig`: input nuts grouped by
`(file_name, file_format, file_mtime)`. -/
def by_files (nuts : List Nut) : List ((String × String × Option ℚ) × List Nut) :=
  nuts.foldl (fun acc n => insertGroup acc (fileKey n) n) []

/-- One step of the `collections.Counter` over `(kind, codes)`. -/
def bumpCount (acc : List ((String × String) × ℕ)) (k : String × String) :
    List ((String × String) × ℕ) :=
  match acc with
  | [] => [(k, 1)]
  | (k', c) :: rest =>
    if k' = k then (k', c + 1) :: rest else (k', c) :: bumpCount rest k

/-- The `count_kind_codes` counter of `dig`. -/
def count_kind_codes (nuts : List Nut) : List ((String × String) × ℕ) :=
  nuts.foldl (fun acc n => bumpCount acc (kcKey n)) []

/-- `INSERT OR IGNORE INTO kind_codes VALUES (?,?,0)` for each counted key. -/
def insertOrIgnoreKC (db : DB) (keys : List (String × String)) : DB :=
  keys.foldl (fun d k =>
    if d.kind_codes.any (fun kr => decide (kr.kind = k.1 ∧ kr.codes = k.2)) then d
    else { d with
      kind_codes := d.kind_codes ++ [⟨d.next_kc_rowid, k.1, k.2, 0⟩],
      next_kc_rowid := d.next_kc_rowid + 1 }) db

/-- The row-wise effect on the `kind_codes` table of `UPDATE kind_codes SET
count = count + ? WHERE kind == ? AND codes == ?`. -/
def bumpCountStep (k : String × String) (inc : ℤ) (l : List KindCodesRow) :
    List KindCodesRow :=
  l.map fun kr =>
    if kr.kind = k.1 ∧ kr.codes = k.2 then { kr with count := kr.count + inc } else kr

/-- `UPDATE kind_codes SET count = count + ? WHERE kind == ? AND codes == ?`. -/
def bumpKC (db : DB) (k : String × String) (inc : ℤ) : DB :=
  { db with kind_codes := bumpCountStep k inc db.kind_codes }

/-- The row-wise effect on the `kind_codes` table of the
`decrement_kind_codes` trigger for one deleted nut row. -/
def decCountStep (kcid : Option ℕ) (l : List KindCodesRow) : List KindCodesRow :=
  l.map fun kr =>
    if kcid = some kr.rowid then { kr with count := kr.count - 1 } else kr

/-- The `decrement_kind_codes` trigger for one deleted nut row:
`UPDATE kind_codes SET count = count - 1 WHERE old.kind_codes_id == rowid`. -/
def decKC (db : DB) (kcid : Option ℕ) : DB :=
  { db with kind_codes := decCountStep kcid db.kind_codes }

/-- Deleting one `files` row: the `delete_nuts` trigger removes its nuts,
each removal firing `decrement_kind_codes`. -/
def cascadeDeleteFileRow (db : DB) (fr : FilesRow) : DB :=
  let removed := db.nuts.filter fun nr => nr.file_id = fr.rowid
  let db1 := removed.foldl (fun d nr => decKC d nr.kind_codes_id) db
  { db1 with
    nuts := db1.nuts.filter fun nr => ¬ nr.file_id = fr.rowid
    files := db1.files.filter fun x => ¬ x.rowid = fr.rowid }

/-- `DELETE FROM files WHERE file_name = ?` with its triggers. -/
def deleteFiles (db : DB) (name : String) : DB :=
  (db.files.filter fun fr => fr.file_name = name).foldl cascadeDeleteFileRow db

/-- The scalar subquery `SELECT rowid FROM kind_codes WHERE kind == ? AND
codes == ?` used when inserting a nut (NULL when no row matches). -/
def findKCByKey (db : DB) (kind codes : String) : Option KindCodesRow :=
  db.kind_codes.find? fun kr => decide (kr.kind = kind ∧ kr.codes = codes)

/-- The nuts row built for one inserted nut: its `kind_codes_id` comes from
the scalar subquery against the current `kind_codes` table, its `kscale`
from the duration ladder. -/
def insertedNutRow (edges : List ℤ) (db : DB) (file_id : ℕ) (n : Nut) : NutsRow :=
  { file_id := file_id
    file_segment := n.file_segment
    file_element := n.file_element
    kind_codes_id := (findKCByKey db n.kind n.codes).map KindCodesRow.rowid
    tmin_seconds := n.tmin_seconds
    tmin_offset := n.tmin_offset
    tmax_seconds := n.tmax_seconds
    tmax_offset := n.tmax_offset
    deltat := n.deltat
    kscale := kscaleOf edges n.duration }

/-- Inserting one nut row for file `file_id`; the composite primary key
`(file_id, file_segment, file_element)` raises on a duplicate. -/
def insertNut (edges : List ℤ) (db : DB) (file_id : ℕ) (n : Nut) : Except SqErr DB :=
  if db.nuts.any (fun nr => decide (nr.file_id = file_id ∧
      nr.file_segment = n.file_segment ∧ nr.file_element = n.file_element)) then
    .error .integrityError
  else
    .ok { db with nuts := db.nuts ++ [insertedNutRow edges db file_id n] }

/-- Processing one `by_files` group inside `dig`: delete any existing file
row with that name (cascading), insert the fresh file row, insert the
group's nuts. -/
def digGroup (edges : List ℤ) (db : DB) (k : String × String × Option ℚ)
    (file_nuts : List Nut) : Except SqErr DB :=
  let db1 := deleteFiles db k.1
  let fid := db1.next_file_rowid
  let db2 := { db1 with
    files := db1.files ++ [⟨fid, k.1, k.2.1, k.2.2⟩]
    next_file_rowid := fid + 1 }
  file_nuts.foldlM (fun d n => insertNut edges d fid n) db2

/-- The state of a `digGroup` run after the delete and the fresh file-row
insert, before the group's nuts are inserted. -/
def digGroupMid (db : DB) (k : String × String × Option ℚ) : DB :=
  { deleteFiles db k.1 with
    files := (deleteFiles db k.1).files ++
      [⟨(deleteFiles db k.1).next_file_rowid, k.1, k.2.1, k.2.2⟩]
    next_file_rowid := (deleteFiles db k.1).next_file_rowid + 1 }

/-- The state produced by a successful `digGroup` in closed form: the old
file row of that name (with its nuts) cascades away, the fresh file row gets
the next rowid, and one nuts row per group nut is appended (see
`digGroup_ok`). -/
def digGroupResult (edges : List ℤ) (db : DB) (k : String × String × Option ℚ)
    (ns : List Nut) : DB :=
  { digGroupMid db k with
    nuts := (digGroupMid db k).nuts ++
      ns.map fun n => insertedNutRow edges db (deleteFiles db k.1).next_file_rowid n }

/-- `Database.dig`. -/
def dig (edges : List ℤ) (db : DB) (nuts : List Nut) : Except SqErr DB :=
  if nuts.isEmpty then .ok db
  else
    let counts := count_kind_codes nuts
    let db1 := insertOrIgnoreKC db (counts.map Prod.fst)
    let db2 := counts.foldl (fun d kc => bumpKC d kc.1 (kc.2 : ℤ)) db1
    (by_files nuts).foldlM (fun d g => digGroup edges d g.1 g.2) db2

/-- The state after `dig`'s kind-codes phase (`INSERT OR IGNORE` of every
counted key followed by the count updates), before the per-file groups are
processed. -/
def digPrep (db : DB) (c : List Nut) : DB :=
  (count_kind_codes c).foldl (fun d kc => bumpKC d kc.1 (kc.2 : ℤ))
    (insertOrIgnoreKC db ((count_kind_codes c).map Prod.fst))

/-- A sequence of `dig` calls starting from `db`. -/
def digAll (edges : List ℤ) (db : DB) (calls : List (List Nut)) : Except SqErr DB :=
  calls.foldlM (fun d c => dig edges d c) db

/-! ### Point and grouped lookups -/

/-- The join `nuts.kind_codes_id == kind_codes.rowid` resolved to the columns
the queries read back (`kind_codes.kind`, `kind_codes.codes`). -/
def kcResolve (db : DB) (r : ℕ) : Option (String × String) :=
  (db.kind_codes.find? fun kr => decide (kr.rowid = r)).map fun kr => (kr.kind, kr.codes)

/-- Rebuilding a `model.Nut` from one fully joined result row
(`values_nocheck`). -/
def reconstructNut (fr : FilesRow) (nr : NutsRow) (kc : String × String) : Nut :=
  { file_name := fr.file_name
    file_format := fr.file_format
    file_mtime := fr.file_mtime
    file_segment := nr.file_segment
    file_element := nr.file_element
    kind := kc.1
    codes := kc.2
    tmin_seconds := nr.tmin_seconds
    tmin_offset := nr.tmin_offset
    tmax_seconds := nr.tmax_seconds
    tmax_offset := nr.tmax_offset
    deltat := nr.deltat }

/-- Joining one nut row against `kind_codes`; `none` when its
`kind_codes_id` is NULL or resolves to no row. -/
def joinNutRow (db : DB) (fr : FilesRow) (nr : NutsRow) : Option Nut :=
  nr.kind_codes_id.bind fun r => (kcResolve db r).map fun kc => reconstructNut fr nr kc

/-- The nut rows of one file (`files.rowid = nuts.file_id`), in table
order. -/
def nutRowsOf (db : DB) (fr : FilesRow) : List NutsRow :=
  db.nuts.filter fun nr => nr.file_id = fr.rowid

/-- `Database.undig`: all nuts owned by `filename`, via the inner joins
`files × nuts × kind_codes`. -/
def undig (db : DB) (filename : String) : List Nut :=
  (db.files.filter fun fr => fr.file_name = filename).flatMap fun fr =>
    (nutRowsOf db fr).filterMap fun nr => joinNutRow db fr nr

/-- One joined result row as consumed by the grouping loops of
`Database.undig_all` and `Selection.undig_grouped`: the grouping column
(`values[0]`) plus the rest of the row.  The outer `Option` is `none` when
`values[1]` (the `files.file_name` column) is NULL — a `file_states` member
with no `files` row — so the loop appends nothing; the inner `Option` is
`none` when the row is present (`values[1]` not NULL) but the record is not
fully reconstructible because other joined columns are NULL (a `files` row
without nuts, or a nut whose `kind_codes` reference does not resolve): the
loop then appends a record with NULL fields.  Such partially-NULL rows exist
in no state reachable through `dig`. -/
abbrev JoinedRow := String × Option (Option Nut)

/-- The shared accumulation loop of `undig_all` and `undig_grouped`: group
consecutive rows by the grouping column, yielding `(file_name, nuts)` on each
change of column value and once at the end. -/
def groupLoop : List JoinedRow → Option String → List (Option Nut) →
    List (String × List (Option Nut))
  | [], none, _ => []
  | [], some f, acc => [(f, acc)]
  | (name, v) :: rest, none, acc => groupLoop rest (some name) (acc ++ v.toList)
  | (name, v) :: rest, some f, acc =>
    if name = f then groupLoop rest (some f) (acc ++ v.toList)
    else (f, acc) :: groupLoop rest (some name) v.toList

/-- The reconstructed records of the `undig_all` rows of one file (inner
joins: rows with NULL columns are dropped). -/
def fileVals (db : DB) (fr : FilesRow) : List (Option (Option Nut)) :=
  ((nutRowsOf db fr).filterMap fun nr => joinNutRow db fr nr).map fun n => some (some n)

/-- The flat result rows of `Database.undig_all` (inner joins, scanned in
`files` order). -/
def undigAllRowsOf (db : DB) (fr : FilesRow) : List JoinedRow :=
  (fileVals db fr).map fun v => (fr.file_name, v)

/-- `Database.undig_all`. -/
def undig_all (db : DB) : List (String × List (Option Nut)) :=
  groupLoop (db.files.flatMap fun fr => undigAllRowsOf db fr) none []

/-! ### Selections -/

/-- The private `file_states` table of a selection: `(file_name, file_state)`
in `rowid` (insertion) order, `file_name` being the primary key. -/
abbrev FileStates := List (String × ℕ)

/-- `Selection.add`: plain `INSERT INTO file_states VALUES (?, 0)` per name;
a duplicate primary key raises `IntegrityError`. -/
def selectionAdd (st : FileStates) (filenames : List String) : Except SqErr FileStates :=
  filenames.foldlM (fun acc fn =>
    if acc.any (fun m => decide (m.1 = fn)) then .error .integrityError
    else .ok (acc ++ [(fn, 0)])) st

/-- The lookup `files.file_name = ?` (at most one row: primary key). -/
def lookupFile (db : DB) (filename : String) : Option FilesRow :=
  db.files.find? fun fr => decide (fr.file_name = filename)

/-- `Selection.iter_mtimes`: members left-joined against `files` in insertion
order; all three selected columns are NULL when the member has no catalog
row. -/
def iter_mtimes (db : DB) (st : FileStates) : List (Option String × Option String × Option ℚ) :=
  st.map fun m =>
    match lookupFile db m.1 with
    | some fr => (some fr.file_name, some fr.file_format, fr.file_mtime)
    | none => (none, none, none)

/-- `Selection.get_mtimes`. -/
def selectionGetMtimes (db : DB) (st : FileStates) : List (Option ℚ) :=
  (iter_mtimes db st).map fun row => row.2.2

/-- `Database.get_mtimes`: build a scratch selection over the names, read the
mtimes back in insertion order, drop the scratch selection. -/
def get_mtimes (db : DB) (filenames : List String) : Except SqErr (List (Option ℚ)) := do
  let st ← selectionAdd [] filenames
  .ok (selectionGetMtimes db st)

/-- Outcome of the loader collaborator's live mtime lookup
(`io.get_format_provider(fmt)` followed by `mod.mtime(filename)`). -/
inductive MtimeLookup where
  | found (t : ℚ)
  | fileLoadError
  | unknownFormat
deriving DecidableEq, Repr

/-- `Selection.flag_unchanged`.  `exists_on_disk` models `os.path.exists`
and `live_mtime fmt filename` the collaborator lookup.  A member with no
`files` row yields the pair `(0, NULL)` — its `UPDATE ... WHERE file_name =
NULL` matches no row, leaving that member's state unchanged. -/
def flag_unchanged (check_mtime : Bool) (exists_on_disk : String → Bool)
    (live_mtime : String → String → MtimeLookup) (db : DB) (st : FileStates) : FileStates :=
  st.map fun m =>
    match lookupFile db m.1 with
    | none => m
    | some fr =>
      match fr.file_mtime with
      | none => (m.1, 0)
      | some mtime_db =>
        if ¬ exists_on_disk fr.file_name then (m.1, 0)
        else if check_mtime then
          match live_mtime fr.file_format fr.file_name with
          | .fileLoadError => (m.1, 0)
          | .unknownFormat => (m.1, 1)
          | .found mtime_file => if mtime_db ≠ mtime_file then (m.1, 0) else (m.1, 1)
        else (m.1, 1)

/-- The reconstructed records of the `undig_grouped` rows of one member:
`none` when the member has no `files` row (all joined columns NULL, so the
loop appends nothing), a single `some none` when the `files` row exists but
has no nut rows (the loop appends a record with NULL nut fields), and
otherwise one entry per nut row of the member's file. -/
def memberVals (db : DB) (m : String × ℕ) : List (Option (Option Nut)) :=
  match lookupFile db m.1 with
  | none => [none]
  | some fr =>
    match nutRowsOf db fr with
    | [] => [some none]
    | nrs => nrs.map fun nr => some (joinNutRow db fr nr)

/-- The joined rows of `Selection.undig_grouped` contributed by one member,
in member order: `file_states LEFT OUTER JOIN files LEFT OUTER JOIN nuts
LEFT OUTER JOIN kind_codes`, optionally restricted to `file_state == 0`. -/
def memberRows (db : DB) (skip_unchanged : Bool) (m : String × ℕ) : List JoinedRow :=
  if skip_unchanged ∧ m.2 ≠ 0 then []
  else (memberVals db m).map fun v => (m.1, v)

/-- `Selection.undig_grouped`. -/
def undig_grouped (db : DB) (st : FileStates) (skip_unchanged : Bool) :
    List (String × List (Option Nut)) :=
  groupLoop (st.flatMap fun m => memberRows db skip_unchanged m) none []

/-- `Database.undig_many`, as a started generator that is either run to
completion or closed after `consumed` yields.  The scratch selection is
created and registered under `selName` (`Database.selections` and the
private `file_states` table share this lifetime); the trailing
`selection.delete()` is reached only when the loop finishes — closing the
generator early raises `GeneratorExit` at the `yield`, and with no
`try/finally` in the source the delete is skipped. -/
def undig_many_run (db : DB) (registry : List String) (selName : String)
    (filenames : List String) (consumed : ℕ) :
    Except SqErr (List (String × List (Option Nut)) × List String) := do
  let st ← selectionAdd [] filenames
  let registry1 := registry ++ [selName]
  let groups := undig_grouped db st false
  if consumed < groups.length then
    .ok (groups.take consumed, registry1)
  else
    .ok (groups, registry1.erase selName)

/-! ### The `Squirrel` temporal index -/

/-- The ephemeral state a `Squirrel` adds on top of its `Selection`: the
member table plus the private time-bucketed nuts table. -/
structure SquirrelState where
  file_states : FileStates
  nuts : List NutsRow
deriving DecidableEq, Repr

def emptySquirrel : SquirrelState := ⟨[], []⟩

/-- `Squirrel._update_nuts`: copy the catalog nuts of every member whose
state is not `2` into the private nuts table (whose composite primary key
`(file_id, file_segment, file_element)` raises on duplicates), then set
every member state to `2`. -/
def update_nuts (db : DB) (sq : SquirrelState) : Except SqErr SquirrelState := do
  let newRows := sq.file_states.flatMap fun m =>
    if m.2 ≠ 2 then
      match lookupFile db m.1 with
      | some fr => nutRowsOf db fr
      | none => []
    else []
  let nuts1 ← newRows.foldlM (fun acc nr =>
    if acc.any (fun x => decide (x.file_id = nr.file_id ∧
        x.file_segment = nr.file_segment ∧ x.file_element = nr.file_element)) then
      .error .integrityError
    else .ok (acc ++ [nr])) sq.nuts
  .ok { file_states := sq.file_states.map fun m => (m.1, 2), nuts := nuts1 }

/-- `Squirrel.add`: register members via `Selection.add`, then synchronize
the private index.  The `self._load(format, check_mtime)` call in the source
sits under `if False:` and never runs, so `format` and `check_mtime` are
unused. -/
def squirrelAdd (db : DB) (sq : SquirrelState) (filenames : List String) :
    Except SqErr SquirrelState := do
  let st ← selectionAdd sq.file_states filenames
  update_nuts db { sq with file_states := st }

/-- The joined rows of the span queries: `files INNER JOIN private-nuts
INNER JOIN kind_codes`, keeping the raw row for the WHERE clause. -/
def squirrelJoinedRows (db : DB) (sq : SquirrelState) : List (NutsRow × Nut) :=
  db.files.flatMap fun fr =>
    (sq.nuts.filter fun nr => nr.file_id = fr.rowid).filterMap fun nr =>
      (joinNutRow db fr nr).map fun n => (nr, n)

/-- The disjunction of per-bucket `tmin` conditions of `undig_span`: for
each ladder bucket, `kscale == ? AND tmin_seconds BETWEEN (tmax_seconds -
tscale - 1) AND (tmax_seconds + 1)`; for the overflow bucket, `kscale == ?
AND tmin_seconds <= tmax_seconds + 1`. -/
def tmin_cond (edges : List ℤ) (tmax_seconds : ℤ) (nr : NutsRow) : Bool :=
  (List.range (edges.length + 1)).any fun kscale =>
    if kscale ≠ edges.length then
      decide (nr.kscale = kscale ∧
        tmax_seconds - edges.getD kscale 0 - 1 ≤ nr.tmin_seconds ∧
        nr.tmin_seconds ≤ tmax_seconds + 1)
    else
      decide (nr.kscale = kscale ∧ nr.tmin_seconds ≤ tmax_seconds + 1)

/-- `Squirrel.undig_span`: the bucketed interval query over the private
index. -/
def undig_span (edges : List ℤ) (db : DB) (sq : SquirrelState) (tmin tmax : ℚ) : List Nut :=
  let tmin_seconds := (tsplit tmin).1
  let tmax_seconds := (tsplit tmax).1
  (squirrelJoinedRows db sq).filterMap fun row =>
    if tmin_cond edges tmax_seconds row.1 && decide (tmin_seconds ≤ row.1.tmax_seconds)
    then some row.2 else none

/-- `Squirrel.undig_span_naiv`: the reference full-scan overlap query
(`tmax_seconds >= ?` and `tmin_seconds <= ?` with arguments `tmin_seconds`
and `tmax_seconds + 1`). -/
def undig_span_naiv (db : DB) (sq : SquirrelState) (tmin tmax : ℚ) : List Nut :=
  let tmin_seconds := (tsplit tmin).1
  let tmax_seconds := (tsplit tmax).1
  (squirrelJoinedRows db sq).filterMap fun row =>
    if decide (tmin_seconds ≤ row.1.tmax_seconds) &&
        decide (row.1.tmin_seconds ≤ tmax_seconds + 1)
    then some row.2 else none

/-- Splitting a character list on a separator character, with Python
`str.split(sep)` semantics: `"" ↦ [""]`, consecutive separators produce
empty components. -/
def splitCharList (sep : Char) : List Char → List (List Char)
  | [] => [[]]
  | c :: rest =>
    let r := splitCharList sep rest
    if c = sep then [] :: r
    else
      match r with
      | [] => [[c]]
      | g :: gs => (c :: g) :: gs

/-- Python `codes.split('\x00')`: decomposing a codes string into its
NUL-separated components. -/
def splitCodes (s : String) : List String :=
  (splitCharList (Char.ofNat 0) s.data).map fun cs => String.mk cs

/-- `Squirrel.iter_codes`: `SELECT kind, codes from kind_codes`, each codes
string split on NUL.  The implementation reads the global `kind_codes`
table and never consults the `kind` argument or the private index. -/
def iter_codes (db : DB) (kind : Option String) : List (String × List String) :=
  db.kind_codes.map fun kr => (kr.kind, splitCodes kr.codes)

/-! ### Notions used only in theorem statements -/

/-- The nuts supplied for `F` by the most recent call of a `dig` sequence
whose input contained nuts for `F` (and `[]` when no call did): the
reference value of `undig F` after the sequence. -/
def lastDigFor (F : String) (calls : List (List Nut)) : List Nut :=
  calls.foldl (fun acc c =>
    if c.any (fun n => decide (n.file_name = F)) then
      c.filter fun n => n.file_name = F
    else acc) []

/-- Well-formedness of the input of one `dig` call: nuts sharing a
`file_name` agree on `file_format` and `file_mtime` (one owning-file
identity per file), and their `(file_name, file_segment, file_element)`
triples — the nuts primary key — are pairwise distinct. -/
def WFCall (c : List Nut) : Prop :=
  (∀ n ∈ c, ∀ m ∈ c, n.file_name = m.file_name →
    n.file_format = m.file_format ∧ n.file_mtime = m.file_mtime) ∧
  (c.map fun n => (n.file_name, n.file_segment, n.file_element)).Nodup

instance (c : List Nut) : Decidable (WFCall c) := by
  unfold WFCall; infer_instance

/-- The number of nuts rows referencing the kind-codes row with rowid `r`. -/
def refCount (db : DB) (r : ℕ) : ℕ :=
  (db.nuts.filter fun nr => nr.kind_codes_id = some r).length

/-- C7's invariant: every kind-codes row's `count` equals the number of nuts
rows referencing it. -/
def CountsOk (db : DB) : Prop :=
  ∀ kr ∈ db.kind_codes, kr.count = (refCount db kr.rowid : ℤ)

/-- The identifying columns of the `kind_codes` table: everything except the
mutable reference count. -/
def kcView (db : DB) : List (ℕ × String × String) :=
  db.kind_codes.map fun kr => (kr.rowid, kr.kind, kr.codes)

/-- A key `(kind, codes)` owns a row of the `kind_codes` table. -/
def kcHasKey (db : DB) (k : String × String) : Prop :=
  ∃ kr ∈ db.kind_codes, kr.kind = k.1 ∧ kr.codes = k.2

/-- Structural well-formedness of a database state, as maintained by the
SQLite schema: primary keys are unique, rowids are unique and below the
fresh counters, and foreign keys stay below the fresh counters. -/
structure DBInv (db : DB) : Prop where
  files_id_lt : ∀ fr ∈ db.files, fr.rowid < db.next_file_rowid
  files_id_nodup : (db.files.map FilesRow.rowid).Nodup
  files_name_nodup : (db.files.map FilesRow.file_name).Nodup
  nuts_fid_lt : ∀ nr ∈ db.nuts, nr.file_id < db.next_file_rowid
  kc_id_lt : ∀ kr ∈ db.kind_codes, kr.rowid < db.next_kc_rowid
  kc_id_nodup : (db.kind_codes.map KindCodesRow.rowid).Nodup
  kc_key_nodup : (db.kind_codes.map fun kr => (kr.kind, kr.codes)).Nodup
  nuts_kcid_lt : ∀ nr ∈ db.nuts, ∀ r, nr.kind_codes_id = some r → r < db.next_kc_rowid

/-- The per-member state assignment exactly as claim C6 words it: member
missing on disk or with no recorded catalog mtime becomes STALE (0); a live
lookup failing with "cannot read" makes it STALE; an unrecognized format
makes it FRESH (1); a recorded mtime differing from the live mtime makes it
STALE; otherwise FRESH; with `check_mtime = false` the live lookup and its
outcomes are skipped. -/
def flagStateClaimed (check_mtime : Bool) (exists_on_disk : String → Bool)
    (live_mtime : String → String → MtimeLookup) (db : DB) (fn : String) : ℕ :=
  match lookupFile db fn with
  | none => 0
  | some fr =>
    match fr.file_mtime with
    | none => 0
    | some mtime_db =>
      if ¬ exists_on_disk fn then 0
      else if check_mtime then
        match live_mtime fr.file_format fn with
        | .fileLoadError => 0
        | .unknownFormat => 1
        | .found mtime_file => if mtime_db ≠ mtime_file then 0 else 1
      else 1

/-! ### Concrete scenarios used by witnesses and counterexamples -/

/-- A sample duration ladder with a single edge (no theorem depends on the
ladder's concrete values; concrete runs need one). -/
def exEdges : List ℤ := [10]

def exNutA : Nut :=
  { file_name := "a", file_format := "test", file_mtime := some 0
    file_segment := 0, file_element := 0, kind := "waveform", codes := "c01"
    tmin_seconds := 0, tmin_offset := 0, tmax_seconds := 5, tmax_offset := 0, deltat := 1 }

def exNutA2 : Nut := { exNutA with file_element := 1, codes := "c02" }

def exNutB : Nut :=
  { exNutA with file_name := "b", codes := "c03", tmin_seconds := 100, tmax_seconds := 103 }

/-- `exNutA` re-dug later with a different mtime and codes. -/
def exNutA' : Nut := { exNutA with file_mtime := some 7, codes := "c09" }

/-- Catalog with files `a` (two nuts) and `b` (one nut). -/
def exCallsAB : List (List Nut) := [[exNutA, exNutA2, exNutB]]

def exDBab : DB := ((digAll exEdges emptyDB exCallsAB).toOption).getD emptyDB

/-- Two dig calls: file `a` indexed, then re-indexed together with `b`. -/
def exCallsRedig : List (List Nut) := [[exNutA, exNutA2], [exNutA', exNutB]]

def exDBredig : DB := ((digAll exEdges emptyDB exCallsRedig).toOption).getD emptyDB

/-- Catalog plus squirrel private index over file `a` alone. -/
def exPipe : Except SqErr (DB × SquirrelState) := do
  let db ← dig exEdges emptyDB [exNutA]
  let sq ← squirrelAdd db emptySquirrel ["a"]
  .ok (db, sq)

/-- The bucket of key `k` in a grouping accumulator (`[]` when absent). -/
def groupOf {α : Type} [DecidableEq α] (acc : List (α × List Nut)) (k : α) : List Nut :=
  match acc.find? fun g => decide (g.1 = k) with
  | some g => g.2
  | none => []

/-- The number of nuts in `l` carrying the kind-codes key `K`. -/
def countKeyNuts (l : List Nut) (K : String × String) : ℕ :=
  (l.filter fun n => decide (kcKey n = K)).length

/-- The total increment the count-update phase of `dig` applies to a row with
key `K`: the summed values of the counter entries for `K`. -/
def sumMatch (cs : List ((String × String) × ℕ)) (K : String × String) : ℤ :=
  ((cs.filter fun e => decide (e.1 = K)).map fun e => (e.2 : ℤ)).sum

/-- One `dig` call containing nuts for file `a` under two different mtimes:
`by_files` splits them into two groups of the same file name. -/
def exCallsClash : List (List Nut) := [[exNutA, exNutA']]

def exDBclash : DB := ((digAll exEdges emptyDB exCallsClash).toOption).getD emptyDB

/-! ## Theorems -/

/-- C1: the bucketed query `undig_span` is NOT equivalent to the reference
full scan `undig_span_naiv`.  With ladder `[10]`, one indexed nut for file
`a` spanning seconds `[0, 5]` (so `kscale = 0`), and the query window
`[-100, 1000]`, the naive reference returns the overlapping nut while
`undig_span` returns nothing: each bucket's lower `tmin` bound is computed
from the query's `tmax` (`tmax_seconds - tscale - 1`), so a short nut lying
inside a wide window is excluded.  (The sound lower bound would come from
the query's `tmin`.) -/
theorem undig_span_misses_short_nut_in_wide_window :
    (exPipe.map fun p => undig_span exEdges p.1 p.2 (-100) 1000) = .ok [] ∧
    (exPipe.map fun p => undig_span_naiv p.1 p.2 (-100) 1000) = .ok [exNutA] :=
  ⟨by with_unfolding_all rfl, by with_unfolding_all rfl⟩

/-- C5: calling `Squirrel.add` a second time with an identical list of files
does not succeed: `Selection.add` runs a plain `INSERT` against the
`file_states` primary key, so the second call raises `IntegrityError`
before any freshness logic runs (the `_load`/`check_mtime` path is dead code
behind `if False:`). -/
theorem squirrelAdd_twice_raises :
    (do
      let db ← dig exEdges emptyDB [exNutA]
      let sq1 ← squirrelAdd db emptySquirrel ["a"]
      squirrelAdd db sq1 ["a"] : Except SqErr SquirrelState) = .error .integrityError :=
  by with_unfolding_all rfl

/-- C9 counterexample: `iter_codes` does not restrict its output to the
requested kind (nor to the selection's private index): asked for kind
`"station"` on a catalog whose only kind-codes row has kind `"waveform"`,
it still yields that row. -/
theorem iter_codes_ignores_kind_argument :
    ((dig exEdges emptyDB [exNutA]).map fun db => iter_codes db (some "station")) =
      .ok [("waveform", ["c01"])] ∧ "waveform" ≠ "station" :=
  ⟨by with_unfolding_all rfl, by decide⟩

/-- C4 counterexample: `get_mtimes` on a list containing a duplicate name
raises `IntegrityError` (the scratch selection's `file_states` primary key
rejects the second insert) instead of returning a positionally aligned
sequence of the same length. -/
theorem get_mtimes_raises_on_duplicate_name :
    get_mtimes emptyDB ["a", "a"] = .error .integrityError :=
  rfl

/-! ### Lemmas about the grouping loop -/

theorem groupLoop_cons_same (name : String) (v : Option (Option Nut)) (rest : List JoinedRow)
    (acc : List (Option Nut)) :
    groupLoop ((name, v) :: rest) (some name) acc =
      groupLoop rest (some name) (acc ++ v.toList) := by
  simp [groupLoop]

theorem groupLoop_cons_diff (name f : String) (h : ¬ name = f) (v : Option (Option Nut))
    (rest : List JoinedRow) (acc : List (Option Nut)) :
    groupLoop ((name, v) :: rest) (some f) acc =
      (f, acc) :: groupLoop rest (some name) v.toList := by
  simp [groupLoop, h]

theorem groupLoop_cons_none (name : String) (v : Option (Option Nut))
    (rest : List JoinedRow) (acc : List (Option Nut)) :
    groupLoop ((name, v) :: rest) none acc = groupLoop rest (some name) (acc ++ v.toList) :=
  rfl

theorem toList_append_reduceOption (v : Option (Option Nut))
    (vs : List (Option (Option Nut))) :
    v.toList ++ vs.reduceOption = (v :: vs).reduceOption := by
  cases v <;> simp [List.reduceOption]

theorem groupLoop_same_name (vs : List (Option (Option Nut))) (rest : List JoinedRow)
    (f : String) (acc : List (Option Nut)) :
    groupLoop ((vs.map fun v => (f, v)) ++ rest) (some f) acc =
      groupLoop rest (some f) (acc ++ vs.reduceOption) := by
  induction vs generalizing acc with
  | nil => simp
  | cons v vs ih =>
    rw [List.map_cons, List.cons_append, groupLoop_cons_same, ih,
      List.append_assoc, toList_append_reduceOption]

theorem groupLoop_blocks_pending (blocks : List (String × List (Option (Option Nut))))
    (hnd : (blocks.map Prod.fst).Nodup) :
    ∀ f acc, f ∉ blocks.map Prod.fst →
      groupLoop (blocks.flatMap fun b => b.2.map fun v => (b.1, v)) (some f) acc =
        (f, acc) :: (blocks.filter fun b => !b.2.isEmpty).map
          fun b => (b.1, b.2.reduceOption) := by
  induction blocks with
  | nil => intro f acc _; simp [groupLoop]
  | cons b rest ih =>
    intro f acc hf
    obtain ⟨n, rows⟩ := b
    have hn_rest : n ∉ rest.map Prod.fst := by
      have h2 := hnd; simp only [List.map_cons, List.nodup_cons] at h2
      exact h2.1
    have hnd_rest : (rest.map Prod.fst).Nodup := by
      have h2 := hnd; simp only [List.map_cons, List.nodup_cons] at h2
      exact h2.2
    have hf_rest : f ∉ rest.map Prod.fst := by
      intro h; exact hf (by simp [h])
    cases rows with
    | nil =>
      rw [List.flatMap_cons]
      simp only [List.map_nil, List.nil_append, List.filter_cons, List.isEmpty_nil,
        Bool.not_true, Bool.false_eq_true, if_false]
      exact ih hnd_rest f acc hf_rest
    | cons v vs =>
      have hfn : ¬ n = f := by
        intro h; exact hf (by simp [h])
      rw [List.flatMap_cons, List.map_cons, List.cons_append,
        groupLoop_cons_diff n f hfn, groupLoop_same_name,
        ih hnd_rest n _ hn_rest, toList_append_reduceOption]
      simp [List.filter_cons]

theorem groupLoop_blocks (blocks : List (String × List (Option (Option Nut))))
    (hnd : (blocks.map Prod.fst).Nodup) :
    groupLoop (blocks.flatMap fun b => b.2.map fun v => (b.1, v)) none [] =
      (blocks.filter fun b => !b.2.isEmpty).map fun b => (b.1, b.2.reduceOption) := by
  induction blocks with
  | nil => simp [groupLoop]
  | cons b rest ih =>
    obtain ⟨n, rows⟩ := b
    have hn_rest : n ∉ rest.map Prod.fst := by
      have h2 := hnd; simp only [List.map_cons, List.nodup_cons] at h2
      exact h2.1
    have hnd_rest : (rest.map Prod.fst).Nodup := by
      have h2 := hnd; simp only [List.map_cons, List.nodup_cons] at h2
      exact h2.2
    cases rows with
    | nil =>
      rw [List.flatMap_cons]
      simp only [List.map_nil, List.nil_append, List.filter_cons, List.isEmpty_nil,
        Bool.not_true, Bool.false_eq_true, if_false]
      exact ih hnd_rest
    | cons v vs =>
      rw [List.flatMap_cons, List.map_cons, List.cons_append, groupLoop_cons_none,
        List.nil_append, groupLoop_same_name,
        groupLoop_blocks_pending rest hnd_rest n _ hn_rest, toList_append_reduceOption]
      simp [List.filter_cons]

theorem memberVals_ne_nil (db : DB) (m : String × ℕ) : memberVals db m ≠ [] := by
  unfold memberVals
  cases lookupFile db m.1 with
  | none => simp
  | some fr =>
    cases h : nutRowsOf db fr with
    | nil => simp [h]
    | cons a l => simp [h]

theorem flatMap_map_blocks {α : Type} (l : List α) (g : α → String × List (Option (Option Nut))) :
    ((l.map g).flatMap fun b => b.2.map fun v => (b.1, v)) =
      l.flatMap fun x => ((g x).2.map fun v => ((g x).1, v)) := by
  induction l with
  | nil => rfl
  | cons x xs ih => simp only [List.map_cons, List.flatMap_cons, ih]

/-- `undig_all` characterized: one yield per file owning at least one fully
joined row, in `files` order. -/
theorem undig_all_eq_blocks (db : DB) (hnd : (db.files.map FilesRow.file_name).Nodup) :
    undig_all db = (((db.files.map fun fr => (fr.file_name, fileVals db fr)).filter
      fun b => !b.2.isEmpty).map fun b => (b.1, b.2.reduceOption)) := by
  unfold undig_all
  have hshape : (db.files.flatMap fun fr => undigAllRowsOf db fr) =
      ((db.files.map fun fr => (fr.file_name, fileVals db fr)).flatMap
        fun b => b.2.map fun v => (b.1, v)) := by
    rw [flatMap_map_blocks]
    rfl
  rw [hshape]
  apply groupLoop_blocks
  rw [List.map_map]
  exact hnd

/-- `undig_grouped` characterized: one yield per kept member, in member
insertion order. -/
theorem undig_grouped_eq_blocks (db : DB) (st : FileStates) (skip : Bool)
    (hnd : (st.map Prod.fst).Nodup) :
    undig_grouped db st skip =
      (((st.map fun m => (m.1, if skip ∧ m.2 ≠ 0 then [] else memberVals db m)).filter
        fun b => !b.2.isEmpty).map fun b => (b.1, b.2.reduceOption)) := by
  unfold undig_grouped
  have hshape : (st.flatMap fun m => memberRows db skip m) =
      ((st.map fun m => (m.1, if skip ∧ m.2 ≠ 0 then [] else memberVals db m)).flatMap
        fun b => b.2.map fun v => (b.1, v)) := by
    rw [flatMap_map_blocks]
    apply List.flatMap_congr
    intro m _
    by_cases h : skip ∧ m.2 ≠ 0
    · simp [memberRows, h]
    · simp [memberRows, h]
  rw [hshape]
  apply groupLoop_blocks
  rw [List.map_map]
  exact hnd

/-- C3: under the primary-key constraints of the `files` and `file_states`
tables, `undig_all` and `undig_grouped` group contiguously: no `file_name`
occurs in two distinct yielded pairs (the yielded names are pairwise
distinct, so all nuts of one file appear in its single pair). -/
theorem undig_all_and_grouped_contiguous (db : DB) (st : FileStates) (skip : Bool)
    (hfiles : (db.files.map FilesRow.file_name).Nodup)
    (hst : (st.map Prod.fst).Nodup) :
    ((undig_all db).map Prod.fst).Nodup ∧
    ((undig_grouped db st skip).map Prod.fst).Nodup := by
  constructor
  · rw [undig_all_eq_blocks db hfiles, List.map_map]
    have h1 : ((db.files.map fun fr => (fr.file_name, fileVals db fr)).filter
          fun b => !b.2.isEmpty).map ((Prod.fst ∘ fun b => (b.1, b.2.reduceOption))) =
        ((db.files.map fun fr => (fr.file_name, fileVals db fr)).filter
          fun b => !b.2.isEmpty).map Prod.fst := rfl
    rw [h1]
    refine List.Nodup.sublist ((List.filter_sublist _).map Prod.fst) ?_
    rw [List.map_map]
    exact hfiles
  · rw [undig_grouped_eq_blocks db st skip hst, List.map_map]
    have h1 : ((st.map fun m => (m.1, if skip ∧ m.2 ≠ 0 then [] else memberVals db m)).filter
          fun b => !b.2.isEmpty).map ((Prod.fst ∘ fun b => (b.1, b.2.reduceOption))) =
        ((st.map fun m => (m.1, if skip ∧ m.2 ≠ 0 then [] else memberVals db m)).filter
          fun b => !b.2.isEmpty).map Prod.fst := rfl
    rw [h1]
    refine List.Nodup.sublist ((List.filter_sublist _).map Prod.fst) ?_
    rw [List.map_map]
    exact hst

/-- Witness for C3 at a concrete catalog and selection. -/
theorem undig_all_and_grouped_contiguous_witness :
    ((exDBab.files.map FilesRow.file_name).Nodup ∧
      (([("a", 0), ("zz", 1)] : FileStates).map Prod.fst).Nodup) ∧
    ((undig_all exDBab).map Prod.fst).Nodup ∧
    ((undig_grouped exDBab [("a", 0), ("zz", 1)] true).map Prod.fst).Nodup :=
  ⟨⟨by with_unfolding_all decide, by decide⟩,
    undig_all_and_grouped_contiguous exDBab [("a", 0), ("zz", 1)] true
      (by with_unfolding_all decide) (by decide)⟩

/-- C10: lookups for a file name with no catalog row do not fail: `undig`
returns the empty list, and `undig_grouped` still yields a pair with an
empty nut list for every such member. -/
theorem unknown_name_lookups_are_total (db : DB) (name : String) (st : FileStates)
    (hnd : (st.map Prod.fst).Nodup) (hmem : name ∈ st.map Prod.fst)
    (h : lookupFile db name = none) :
    undig db name = [] ∧ (name, ([] : List (Option Nut))) ∈ undig_grouped db st false := by
  have hfilter : (db.files.filter fun fr => fr.file_name = name) = [] := by
    rw [List.filter_eq_nil_iff]
    intro fr hfr hname
    have h2 := List.find?_eq_none.mp h fr hfr
    simp only [decide_eq_true_eq] at h2
    exact h2 (of_decide_eq_true hname)
  constructor
  · unfold undig
    rw [hfilter]
    rfl
  · rw [undig_grouped_eq_blocks db st false hnd]
    simp only [List.mem_map] at hmem
    obtain ⟨m, hm, hm1⟩ := hmem
    have hvals : memberVals db m = [none] := by
      unfold memberVals
      rw [hm1, h]
    apply List.mem_map.mpr
    refine ⟨(m.1, memberVals db m), List.mem_filter.mpr ⟨?_, ?_⟩, ?_⟩
    · exact List.mem_map.mpr ⟨m, hm, by simp⟩
    · rw [hvals]; rfl
    · rw [hvals, hm1]; rfl

/-- Witness for C10 at a concrete catalog and selection. -/
theorem unknown_name_lookups_are_total_witness :
    ((([("zz", 0)] : FileStates).map Prod.fst).Nodup ∧
      "zz" ∈ ([("zz", 0)] : FileStates).map Prod.fst ∧
      lookupFile exDBab "zz" = none) ∧
    undig exDBab "zz" = [] ∧
    ("zz", ([] : List (Option Nut))) ∈ undig_grouped exDBab [("zz", 0)] false :=
  ⟨⟨by decide, by decide, by with_unfolding_all rfl⟩,
    unknown_name_lookups_are_total exDBab "zz" [("zz", 0)] (by decide) (by decide)
      (by with_unfolding_all rfl)⟩

/-- C9 (amended): `iter_codes` yields exactly the `(kind, NUL-decomposed
codes)` pairs of the rows of the catalog's global `kind_codes` table — for
every requested kind, in particular independent of both the `kind` argument
and the selection's private index. -/
theorem iter_codes_yields_global_table (db : DB) (kind : Option String)
    (p : String × List String) :
    p ∈ iter_codes db kind ↔ ∃ kr ∈ db.kind_codes, p = (kr.kind, splitCodes kr.codes) := by
  simp only [iter_codes, List.mem_map]
  constructor
  · rintro ⟨kr, hkr, rfl⟩; exact ⟨kr, hkr, rfl⟩
  · rintro ⟨kr, hkr, rfl⟩; exact ⟨kr, hkr, rfl⟩

/-- `Selection.add` succeeds on a duplicate-free list of fresh names and
appends the members at state `0` in caller order. -/
theorem selectionAdd_of_nodup (filenames : List String) (st : FileStates)
    (hdisj : ∀ m ∈ st, m.1 ∉ filenames) (hnd : filenames.Nodup) :
    selectionAdd st filenames = .ok (st ++ filenames.map fun fn => (fn, 0)) := by
  induction filenames generalizing st with
  | nil => rw [List.map_nil, List.append_nil]; rfl
  | cons fn rest ih =>
    have hany : st.any (fun m => decide (m.1 = fn)) = false := by
      rw [List.any_eq_false]
      intro m hm
      simp only [decide_eq_true_eq]
      intro hEq
      exact hdisj m hm (by simp [hEq])
    have hstep : selectionAdd st (fn :: rest) = selectionAdd (st ++ [(fn, 0)]) rest := by
      unfold selectionAdd
      rw [List.foldlM_cons, hany]
      rfl
    rw [hstep, ih (st ++ [(fn, 0)])]
    · simp
    · intro m hm
      rcases List.mem_append.mp hm with h1 | h2
      · intro hc; exact hdisj m h1 (by simp [hc])
      · simp only [List.mem_singleton] at h2
        subst h2
        simpa using (List.nodup_cons.mp hnd).1
    · exact (List.nodup_cons.mp hnd).2

/-- C4 (amended): for a duplicate-free list of names, `get_mtimes` returns a
sequence of the same length whose i-th element is the catalog's recorded
mtime of the i-th name or NULL when that name has no file row, in caller
order.  (A caller list with duplicates raises instead, see
`get_mtimes_raises_on_duplicate_name`.) -/
theorem get_mtimes_aligned (db : DB) (filenames : List String) (hnd : filenames.Nodup) :
    get_mtimes db filenames =
      .ok (filenames.map fun fn => (lookupFile db fn).bind FilesRow.file_mtime) := by
  unfold get_mtimes
  rw [selectionAdd_of_nodup filenames [] (by simp) hnd]
  show Except.ok (selectionGetMtimes db _) = _
  congr 1
  unfold selectionGetMtimes iter_mtimes
  rw [List.nil_append, List.map_map, List.map_map]
  apply List.map_congr_left
  intro fn _
  simp only [Function.comp]
  cases lookupFile db fn <;> rfl

/-- Witness for C4 at a concrete catalog: names in scrambled order with an
unknown name interleaved. -/
theorem get_mtimes_aligned_witness :
    (["b", "zz", "a"] : List String).Nodup ∧
    get_mtimes exDBab ["b", "zz", "a"] =
      .ok ((["b", "zz", "a"] : List String).map fun fn =>
        (lookupFile exDBab fn).bind FilesRow.file_mtime) :=
  ⟨by decide, get_mtimes_aligned exDBab ["b", "zz", "a"] (by decide)⟩

/-- C6 counterexample: a member with no catalog file row does not become
STALE when its state is not already 0.  The state `(x, 2)` is reachable:
`Squirrel.add` on a file unknown to the catalog marks it INDEXED.
`flag_unchanged` then leaves it at `2` (its `UPDATE` targets a NULL file
name and matches no row), while the claimed assignment is STALE (`0`). -/
theorem flag_unchanged_misses_member_without_file_row :
    (squirrelAdd emptyDB emptySquirrel ["x"]).map SquirrelState.file_states = .ok [("x", 2)] ∧
    flag_unchanged true (fun _ => false) (fun _ _ => .fileLoadError) emptyDB [("x", 2)] =
      [("x", 2)] ∧
    flagStateClaimed true (fun _ => false) (fun _ _ => .fileLoadError) emptyDB "x" = 0 :=
  ⟨rfl, rfl, rfl⟩

/-- C6 (amended): `flag_unchanged` assigns to every member that has a
catalog file row exactly the state the claim describes (missing on disk or
recorded mtime NULL → STALE; live lookup fails → STALE; format unrecognized
→ FRESH; mtime mismatch → STALE; otherwise FRESH; live lookup skipped when
`check_mtime` is false), while a member with no catalog file row keeps its
previous state. -/
theorem flag_unchanged_characterization (check : Bool) (onDisk : String → Bool)
    (live : String → String → MtimeLookup) (db : DB) (st : FileStates) :
    flag_unchanged check onDisk live db st = st.map fun m =>
      match lookupFile db m.1 with
      | none => m
      | some _ => (m.1, flagStateClaimed check onDisk live db m.1) := by
  unfold flag_unchanged flagStateClaimed
  apply List.map_congr_left
  intro m _
  cases h : lookupFile db m.1 with
  | none => simp
  | some fr =>
    have hname : fr.file_name = m.1 := by
      have h2 := List.find?_some h
      simpa using h2
    simp only [hname]
    cases fr.file_mtime with
    | none => rfl
    | some mtime_db =>
      by_cases hd : onDisk m.1
      · cases check with
        | false => simp [hd]
        | true =>
          cases live fr.file_format m.1 with
          | fileLoadError => simp [hd]
          | unknownFormat => simp [hd]
          | found mtime_file =>
            by_cases hmeq : mtime_db = mtime_file
            · simp [hd, hmeq]
            · simp [hd, hmeq]
      · simp [hd]

/-- C8 counterexample: abandoning `undig_many` after one of two yields
leaves its scratch selection registered (its private `file_states` table is
never dropped): the final registry still contains the scratch selection's
name. -/
theorem undig_many_leaks_on_early_abandonment :
    (undig_many_run exDBab [] "selection_1_0" ["a", "b"] 1).map Prod.snd =
      .ok ["selection_1_0"] := by
  with_unfolding_all rfl

/-- C8 (amended): `undig_many` disposes its scratch selection — leaving the
registry of live selections exactly as before — when the yielded sequence
is consumed to completion; when the generator is abandoned early the scratch
selection stays registered (no cleanup runs). -/
theorem undig_many_disposal (db : DB) (registry : List String) (selName : String)
    (filenames : List String) (consumed : ℕ) (st : FileStates)
    (hreg : selName ∉ registry)
    (hadd : selectionAdd [] filenames = .ok st) :
    ((undig_grouped db st false).length ≤ consumed →
      undig_many_run db registry selName filenames consumed =
        .ok (undig_grouped db st false, registry)) ∧
    (consumed < (undig_grouped db st false).length →
      undig_many_run db registry selName filenames consumed =
        .ok ((undig_grouped db st false).take consumed, registry ++ [selName])) := by
  have herase : (registry ++ [selName]).erase selName = registry := by
    rw [List.erase_append_right _ hreg]
    simp
  constructor
  · intro hle
    unfold undig_many_run
    rw [hadd]
    show (if consumed < (undig_grouped db st false).length then
        Except.ok ((undig_grouped db st false).take consumed, registry ++ [selName])
      else Except.ok (undig_grouped db st false, (registry ++ [selName]).erase selName)) = _
    rw [if_neg (by omega), herase]
  · intro hlt
    unfold undig_many_run
    rw [hadd]
    show (if consumed < (undig_grouped db st false).length then
        Except.ok ((undig_grouped db st false).take consumed, registry ++ [selName])
      else Except.ok (undig_grouped db st false, (registry ++ [selName]).erase selName)) = _
    rw [if_pos hlt]

/-- Witness for C8: full consumption of a two-file `undig_many` restores the
registry. -/
theorem undig_many_disposal_witness :
    ("s" ∉ ([] : List String) ∧
      selectionAdd [] ["a", "b"] = .ok [("a", 0), ("b", 0)]) ∧
    ((undig_grouped exDBab [("a", 0), ("b", 0)] false).length ≤ 2 →
      undig_many_run exDBab [] "s" ["a", "b"] 2 =
        .ok (undig_grouped exDBab [("a", 0), ("b", 0)] false, [])) :=
  ⟨⟨by decide, by rfl⟩,
    (undig_many_disposal exDBab [] "s" ["a", "b"] 2 [("a", 0), ("b", 0)]
      (by decide) (by rfl)).1⟩

/-! ### Stability of the kind-codes view -/

theorem find?_rowid_view_congr (r : ℕ) (l₁ l₂ : List KindCodesRow)
    (h : (l₁.map fun kr => (kr.rowid, kr.kind, kr.codes)) =
      l₂.map fun kr => (kr.rowid, kr.kind, kr.codes)) :
    ((l₁.find? fun kr => decide (kr.rowid = r)).map fun kr => (kr.kind, kr.codes)) =
      ((l₂.find? fun kr => decide (kr.rowid = r)).map fun kr => (kr.kind, kr.codes)) := by
  induction l₁ generalizing l₂ with
  | nil =>
    cases l₂ with
    | nil => rfl
    | cons b l₂ => simp at h
  | cons a l₁ ih =>
    cases l₂ with
    | nil => simp at h
    | cons b l₂ =>
      simp only [List.map_cons, List.cons.injEq, Prod.mk.injEq] at h
      obtain ⟨⟨hr, hk, hc⟩, htail⟩ := h
      by_cases hra : a.rowid = r
      · have hrb : b.rowid = r := by rw [← hr]; exact hra
        simp [List.find?_cons, hra, hrb, hk, hc]
      · have hrb : ¬ b.rowid = r := by rw [← hr]; exact hra
        simpa [List.find?_cons, hra, hrb] using ih l₂ htail

theorem find?_key_view_congr (kind codes : String) (l₁ l₂ : List KindCodesRow)
    (h : (l₁.map fun kr => (kr.rowid, kr.kind, kr.codes)) =
      l₂.map fun kr => (kr.rowid, kr.kind, kr.codes)) :
    ((l₁.find? fun kr => decide (kr.kind = kind ∧ kr.codes = codes)).map KindCodesRow.rowid) =
      ((l₂.find? fun kr => decide (kr.kind = kind ∧ kr.codes = codes)).map
        KindCodesRow.rowid) := by
  induction l₁ generalizing l₂ with
  | nil =>
    cases l₂ with
    | nil => rfl
    | cons b l₂ => simp at h
  | cons a l₁ ih =>
    cases l₂ with
    | nil => simp at h
    | cons b l₂ =>
      simp only [List.map_cons, List.cons.injEq, Prod.mk.injEq] at h
      obtain ⟨⟨hr, hk, hc⟩, htail⟩ := h
      by_cases hka : a.kind = kind ∧ a.codes = codes
      · have hkb : b.kind = kind ∧ b.codes = codes := by rw [← hk, ← hc]; exact hka
        simp [List.find?_cons, hka, hkb, hr]
      · have hkb : ¬ (b.kind = kind ∧ b.codes = codes) := by rw [← hk, ← hc]; exact hka
        simpa [List.find?_cons, hka, hkb] using ih l₂ htail

theorem kcResolve_congr (db₁ db₂ : DB) (h : kcView db₁ = kcView db₂) (r : ℕ) :
    kcResolve db₁ r = kcResolve db₂ r :=
  find?_rowid_view_congr r _ _ h

theorem findKCByKey_rowid_congr (db₁ db₂ : DB) (h : kcView db₁ = kcView db₂)
    (kind codes : String) :
    (findKCByKey db₁ kind codes).map KindCodesRow.rowid =
      (findKCByKey db₂ kind codes).map KindCodesRow.rowid :=
  find?_key_view_congr kind codes _ _ h

theorem insertedNutRow_congr (edges : List ℤ) (db₁ db₂ : DB) (h : kcView db₁ = kcView db₂)
    (fid : ℕ) (n : Nut) :
    insertedNutRow edges db₁ fid n = insertedNutRow edges db₂ fid n := by
  unfold insertedNutRow
  rw [findKCByKey_rowid_congr db₁ db₂ h n.kind n.codes]

theorem kcHasKey_congr (db₁ db₂ : DB) (h : kcView db₁ = kcView db₂) (k : String × String) :
    kcHasKey db₁ k ↔ kcHasKey db₂ k := by
  unfold kcHasKey
  constructor
  · rintro ⟨kr, hkr, h1, h2⟩
    have hmem : (kr.rowid, kr.kind, kr.codes) ∈ kcView db₂ := by
      rw [← h]
      exact List.mem_map_of_mem _ hkr
    simp only [kcView, List.mem_map] at hmem
    obtain ⟨kr', hkr', heq⟩ := hmem
    simp only [Prod.mk.injEq] at heq
    exact ⟨kr', hkr', by rw [heq.2.1, h1], by rw [heq.2.2, h2]⟩
  · rintro ⟨kr, hkr, h1, h2⟩
    have hmem : (kr.rowid, kr.kind, kr.codes) ∈ kcView db₁ := by
      rw [h]
      exact List.mem_map_of_mem _ hkr
    simp only [kcView, List.mem_map] at hmem
    obtain ⟨kr', hkr', heq⟩ := hmem
    simp only [Prod.mk.injEq] at heq
    exact ⟨kr', hkr', by rw [heq.2.1, h1], by rw [heq.2.2, h2]⟩

/-! ### Structural effect of the mutation steps -/

theorem bumpCountStep_view (k : String × String) (inc : ℤ) (l : List KindCodesRow) :
    ((bumpCountStep k inc l).map fun kr => (kr.rowid, kr.kind, kr.codes)) =
      l.map fun kr => (kr.rowid, kr.kind, kr.codes) := by
  unfold bumpCountStep
  rw [List.map_map]
  apply List.map_congr_left
  intro kr _
  by_cases h : kr.kind = k.1 ∧ kr.codes = k.2 <;> simp [h]

theorem decCountStep_view (kcid : Option ℕ) (l : List KindCodesRow) :
    ((decCountStep kcid l).map fun kr => (kr.rowid, kr.kind, kr.codes)) =
      l.map fun kr => (kr.rowid, kr.kind, kr.codes) := by
  unfold decCountStep
  rw [List.map_map]
  apply List.map_congr_left
  intro kr _
  by_cases h : kcid = some kr.rowid <;> simp [h]

theorem kcView_bumpKC (db : DB) (k : String × String) (inc : ℤ) :
    kcView (bumpKC db k inc) = kcView db :=
  bumpCountStep_view k inc db.kind_codes

theorem foldBump_eq (cs : List ((String × String) × ℕ)) (db : DB) :
    cs.foldl (fun d kc => bumpKC d kc.1 (kc.2 : ℤ)) db =
      { db with kind_codes :=
        cs.foldl (fun l kc => bumpCountStep kc.1 (kc.2 : ℤ) l) db.kind_codes } := by
  induction cs generalizing db with
  | nil => rfl
  | cons kc cs ih => rw [List.foldl_cons, List.foldl_cons, ih]; rfl

theorem foldBumpList_view (cs : List ((String × String) × ℕ)) :
    ∀ l : List KindCodesRow,
    ((cs.foldl (fun l kc => bumpCountStep kc.1 (kc.2 : ℤ) l) l).map
        fun kr => (kr.rowid, kr.kind, kr.codes)) =
      l.map fun kr => (kr.rowid, kr.kind, kr.codes) := by
  induction cs with
  | nil => intro l; rfl
  | cons kc cs ih => intro l; rw [List.foldl_cons, ih, bumpCountStep_view]

theorem foldDec_eq (rs : List NutsRow) (db : DB) :
    rs.foldl (fun d nr => decKC d nr.kind_codes_id) db =
      { db with kind_codes :=
        rs.foldl (fun l nr => decCountStep nr.kind_codes_id l) db.kind_codes } := by
  induction rs generalizing db with
  | nil => rfl
  | cons nr rs ih => rw [List.foldl_cons, List.foldl_cons, ih]; rfl

theorem foldDecList_view (rs : List NutsRow) :
    ∀ l : List KindCodesRow,
    ((rs.foldl (fun l nr => decCountStep nr.kind_codes_id l) l).map
        fun kr => (kr.rowid, kr.kind, kr.codes)) =
      l.map fun kr => (kr.rowid, kr.kind, kr.codes) := by
  induction rs with
  | nil => intro l; rfl
  | cons nr rs ih => intro l; rw [List.foldl_cons, ih, decCountStep_view]

theorem cascade_eq (db : DB) (fr : FilesRow) :
    cascadeDeleteFileRow db fr = { db with
      kind_codes := (db.nuts.filter fun nr => nr.file_id = fr.rowid).foldl
        (fun l nr => decCountStep nr.kind_codes_id l) db.kind_codes
      nuts := db.nuts.filter fun nr => ¬ nr.file_id = fr.rowid
      files := db.files.filter fun x => ¬ x.rowid = fr.rowid } := by
  unfold cascadeDeleteFileRow
  dsimp only
  rw [foldDec_eq]

theorem kcView_cascade (db : DB) (fr : FilesRow) :
    kcView (cascadeDeleteFileRow db fr) = kcView db := by
  rw [cascade_eq]
  exact foldDecList_view _ db.kind_codes


/-! ### Characterization of `deleteFiles` and the kind-codes inserts -/

theorem filter_key_single {α β : Type} [DecidableEq β] (l : List α) (f : α → β)
    (h : (l.map f).Nodup) (x : β) :
    (l.filter fun a => decide (f a = x)) = [] ∨
      ∃ a, a ∈ l ∧ f a = x ∧ (l.filter fun a => decide (f a = x)) = [a] := by
  induction l with
  | nil => left; rfl
  | cons a l ih =>
    simp only [List.map_cons, List.nodup_cons] at h
    by_cases hax : f a = x
    · right
      refine ⟨a, List.mem_cons_self a l, hax, ?_⟩
      have htail : (l.filter fun b => decide (f b = x)) = [] := by
        rw [List.filter_eq_nil_iff]
        intro b hb hbx
        have hfb : f b = x := of_decide_eq_true hbx
        exact h.1 (by rw [hax, ← hfb]; exact List.mem_map_of_mem f hb)
      rw [List.filter_cons, if_pos (by simpa using hax), htail]
    · rcases ih h.2 with h0 | ⟨b, hb, hbx, heq⟩
      · left
        rw [List.filter_cons, if_neg (by simpa using hax), h0]
      · right
        exact ⟨b, List.mem_cons_of_mem a hb, hbx,
          by rw [List.filter_cons, if_neg (by simpa using hax), heq]⟩

theorem deleteFiles_spec (db : DB) (name : String)
    (hname : (db.files.map FilesRow.file_name).Nodup)
    (hid : (db.files.map FilesRow.rowid).Nodup) :
    (deleteFiles db name).files = (db.files.filter fun fr => ¬ fr.file_name = name) ∧
    (deleteFiles db name).nuts.Sublist db.nuts ∧
    kcView (deleteFiles db name) = kcView db ∧
    (deleteFiles db name).next_file_rowid = db.next_file_rowid ∧
    (deleteFiles db name).next_kc_rowid = db.next_kc_rowid ∧
    ∀ fr ∈ db.files, ¬ fr.file_name = name →
      ((deleteFiles db name).nuts.filter fun nr => nr.file_id = fr.rowid) =
        (db.nuts.filter fun nr => nr.file_id = fr.rowid) := by
  unfold deleteFiles
  rcases filter_key_single db.files FilesRow.file_name hname name with h0 | ⟨fr0, hfr0, hfr0n, heq⟩
  · rw [h0]
    refine ⟨?_, List.Sublist.refl _, rfl, rfl, rfl, fun _ _ _ => rfl⟩
    have : ∀ fr ∈ db.files, ¬ fr.file_name = name := by
      intro fr hfr hc
      have := List.filter_eq_nil_iff.mp h0 fr hfr
      exact this (by simpa using hc)
    exact (List.filter_eq_self.mpr (by intro a ha; simpa using this a ha)).symm
  · rw [heq, List.foldl_cons, List.foldl_nil, cascade_eq]
    have hinj := List.inj_on_of_nodup_map hid
    have hinjn := List.inj_on_of_nodup_map hname
    refine ⟨?_, List.filter_sublist _, ?_, rfl, rfl, ?_⟩
    · apply List.filter_congr
      intro fr hfr
      have hiff : fr.rowid = fr0.rowid ↔ fr.file_name = name := by
        constructor
        · intro h2; rw [hinj hfr hfr0 h2, hfr0n]
        · intro h2; rw [hinjn hfr hfr0 (by rw [h2, hfr0n])]
      simp [hiff]
    · exact foldDecList_view _ db.kind_codes
    · intro fr hfr hfrn
      rw [List.filter_filter]
      apply List.filter_congr
      intro nr _
      have hrne : ¬ fr.rowid = fr0.rowid := by
        intro hc
        exact hfrn (by rw [hinj hfr hfr0 hc, hfr0n])
      by_cases hfid : nr.file_id = fr.rowid
      · simp [hfid, hrne]
      · simp [hfid]

theorem insertOrIgnoreKC_cons (db : DB) (k : String × String) (keys : List (String × String)) :
    insertOrIgnoreKC db (k :: keys) =
      insertOrIgnoreKC
        (if db.kind_codes.any (fun kr => decide (kr.kind = k.1 ∧ kr.codes = k.2)) then db
         else { db with
           kind_codes := db.kind_codes ++ [⟨db.next_kc_rowid, k.1, k.2, 0⟩],
           next_kc_rowid := db.next_kc_rowid + 1 }) keys := rfl

theorem insertOrIgnoreKC_spec (keys : List (String × String)) :
    ∀ db : DB,
    (insertOrIgnoreKC db keys).files = db.files ∧
    (insertOrIgnoreKC db keys).nuts = db.nuts ∧
    (insertOrIgnoreKC db keys).next_file_rowid = db.next_file_rowid ∧
    db.next_kc_rowid ≤ (insertOrIgnoreKC db keys).next_kc_rowid ∧
    ∃ ext, (insertOrIgnoreKC db keys).kind_codes = db.kind_codes ++ ext ∧
      ∀ kr ∈ ext, db.next_kc_rowid ≤ kr.rowid ∧ kr.count = 0 := by
  induction keys with
  | nil =>
    intro db
    exact ⟨rfl, rfl, rfl, Nat.le_refl _, [], (List.append_nil _).symm, by simp⟩
  | cons k keys ih =>
    intro db
    rw [insertOrIgnoreKC_cons]
    by_cases h : db.kind_codes.any (fun kr => decide (kr.kind = k.1 ∧ kr.codes = k.2))
    · rw [if_pos h]
      exact ih db
    · rw [if_neg h]
      obtain ⟨h1, h2, h3, h4, ext, h5, h6⟩ :=
        ih { db with
          kind_codes := db.kind_codes ++ [⟨db.next_kc_rowid, k.1, k.2, 0⟩],
          next_kc_rowid := db.next_kc_rowid + 1 }
      dsimp only at h4 h5 h6
      refine ⟨h1, h2, h3, by omega, ⟨db.next_kc_rowid, k.1, k.2, 0⟩ :: ext, ?_, ?_⟩
      · rw [h5]
        simp
      · intro kr hkr
        rcases List.mem_cons.mp hkr with hh | ht
        · rw [hh]
          exact ⟨Nat.le_refl _, rfl⟩
        · have h7 := h6 kr ht
          constructor
          · omega
          · exact h7.2

theorem kcHasKey_insertOrIgnore_mono (keys : List (String × String)) :
    ∀ (db : DB) (k : String × String), kcHasKey db k →
      kcHasKey (insertOrIgnoreKC db keys) k := by
  induction keys with
  | nil => intro db k h; exact h
  | cons k' keys ih =>
    intro db k h
    rw [insertOrIgnoreKC_cons]
    by_cases hp : db.kind_codes.any (fun kr => decide (kr.kind = k'.1 ∧ kr.codes = k'.2))
    · rw [if_pos hp]; exact ih db k h
    · rw [if_neg hp]
      apply ih
      obtain ⟨kr, hkr, hx⟩ := h
      exact ⟨kr, by simp [hkr], hx⟩

theorem insertOrIgnoreKC_has (keys : List (String × String)) :
    ∀ (db : DB) (k : String × String), k ∈ keys →
      kcHasKey (insertOrIgnoreKC db keys) k := by
  induction keys with
  | nil => intro db k h; exact absurd h (List.not_mem_nil k)
  | cons k' keys ih =>
    intro db k h
    rw [insertOrIgnoreKC_cons]
    rcases List.mem_cons.mp h with rfl | ht
    · by_cases hp : db.kind_codes.any (fun kr => decide (kr.kind = k.1 ∧ kr.codes = k.2))
      · rw [if_pos hp]
        apply kcHasKey_insertOrIgnore_mono
        obtain ⟨kr, hkr, hx⟩ := List.any_eq_true.mp hp
        exact ⟨kr, hkr, of_decide_eq_true hx⟩
      · rw [if_neg hp]
        apply kcHasKey_insertOrIgnore_mono
        exact ⟨⟨db.next_kc_rowid, k.1, k.2, 0⟩, by simp, rfl, rfl⟩
    · exact ih _ k ht

theorem insertOrIgnoreKC_inv (keys : List (String × String)) :
    ∀ db : DB, DBInv db → DBInv (insertOrIgnoreKC db keys) := by
  induction keys with
  | nil => intro db h; exact h
  | cons k keys ih =>
    intro db hinv
    rw [insertOrIgnoreKC_cons]
    by_cases hp : db.kind_codes.any (fun kr => decide (kr.kind = k.1 ∧ kr.codes = k.2))
    · rw [if_pos hp]; exact ih db hinv
    · rw [if_neg hp]
      apply ih
      have hfresh : ∀ kr ∈ db.kind_codes, kr.rowid < db.next_kc_rowid := hinv.kc_id_lt
      have hkey : ∀ kr ∈ db.kind_codes, ¬ (kr.kind = k.1 ∧ kr.codes = k.2) := by
        intro kr hkr hc
        exact hp (List.any_eq_true.mpr ⟨kr, hkr, decide_eq_true hc⟩)
      refine ⟨hinv.files_id_lt, hinv.files_id_nodup, hinv.files_name_nodup,
        hinv.nuts_fid_lt, ?_, ?_, ?_, ?_⟩
      · intro kr hkr
        show kr.rowid < db.next_kc_rowid + 1
        rcases List.mem_append.mp hkr with hh | ht
        · have := hinv.kc_id_lt kr hh
          omega
        · simp only [List.mem_singleton] at ht
          rw [ht]
          exact Nat.lt_succ_self _
      · rw [List.map_append]
        apply List.Nodup.append hinv.kc_id_nodup (by simp)
        intro r hr1 hr2
        simp only [List.map_cons, List.map_nil, List.mem_singleton] at hr2
        obtain ⟨kr, hkr, hkrr⟩ := List.mem_map.mp hr1
        have := hinv.kc_id_lt kr hkr
        omega
      · rw [List.map_append]
        apply List.Nodup.append hinv.kc_key_nodup (by simp)
        intro p hp1 hp2
        simp only [List.map_cons, List.map_nil, List.mem_singleton] at hp2
        obtain ⟨kr, hkr, hkrp⟩ := List.mem_map.mp hp1
        apply hkey kr hkr
        rw [hp2] at hkrp
        exact ⟨congrArg Prod.fst hkrp, congrArg Prod.snd hkrp⟩
      · intro nr hnr r hr
        show r < db.next_kc_rowid + 1
        have := hinv.nuts_kcid_lt nr hnr r hr
        omega

theorem find?_rowid_append_fresh (l ext : List KindCodesRow) (r bound : ℕ) (hr : r < bound)
    (hext : ∀ kr ∈ ext, bound ≤ kr.rowid) :
    ((l ++ ext).find? fun kr => decide (kr.rowid = r)) =
      l.find? fun kr => decide (kr.rowid = r) := by
  rw [List.find?_append]
  cases h : l.find? (fun kr => decide (kr.rowid = r)) with
  | some kr => rfl
  | none =>
    have hnone : (ext.find? fun kr => decide (kr.rowid = r)) = none := by
      rw [List.find?_eq_none]
      intro kr hkr
      simp only [decide_eq_true_eq]
      intro hkrr
      have := hext kr hkr
      omega
    rw [hnone]
    rfl

/-- `kcResolve` at an already-allocated rowid is unchanged by the kind-codes
phase of a later `dig`. -/
theorem kcResolve_digPrep (db : DB) (c : List Nut) (r : ℕ) (hr : r < db.next_kc_rowid) :
    kcResolve (digPrep db c) r = kcResolve db r := by
  obtain ⟨-, -, -, -, ext, h5, h6⟩ := insertOrIgnoreKC_spec ((count_kind_codes c).map Prod.fst) db
  unfold kcResolve
  have hview : (digPrep db c).kind_codes.map (fun kr => (kr.rowid, kr.kind, kr.codes)) =
      (insertOrIgnoreKC db ((count_kind_codes c).map Prod.fst)).kind_codes.map
        (fun kr => (kr.rowid, kr.kind, kr.codes)) := by
    unfold digPrep
    rw [foldBump_eq]
    exact foldBumpList_view _ _
  have h1 := find?_rowid_view_congr r _ _ hview
  rw [h1, h5, find?_rowid_append_fresh db.kind_codes ext r db.next_kc_rowid hr
    (fun kr hkr => (h6 kr hkr).1)]

theorem undig_stable (db₁ db₂ : DB) (hf : db₂.files = db₁.files) (hn : db₂.nuts = db₁.nuts)
    (hres : ∀ nr ∈ db₁.nuts, ∀ r, nr.kind_codes_id = some r → kcResolve db₂ r = kcResolve db₁ r)
    (F : String) : undig db₂ F = undig db₁ F := by
  unfold undig nutRowsOf
  rw [hf, hn]
  apply List.flatMap_congr
  intro fr _
  apply List.filterMap_congr
  intro nr hnr
  unfold joinNutRow
  cases hk : nr.kind_codes_id with
  | none => rfl
  | some r =>
    simp only [Option.some_bind]
    rw [hres nr (List.mem_of_mem_filter hnr) r hk]

theorem digPrep_spec (db : DB) (c : List Nut) :
    (digPrep db c).files = db.files ∧
    (digPrep db c).nuts = db.nuts ∧
    (digPrep db c).next_file_rowid = db.next_file_rowid ∧
    db.next_kc_rowid ≤ (digPrep db c).next_kc_rowid := by
  obtain ⟨h1, h2, h3, h4, -⟩ := insertOrIgnoreKC_spec ((count_kind_codes c).map Prod.fst) db
  unfold digPrep
  rw [foldBump_eq]
  exact ⟨h1, h2, h3, h4⟩

theorem foldBump_inv (cs : List ((String × String) × ℕ)) (db : DB) (hinv : DBInv db) :
    DBInv (cs.foldl (fun d kc => bumpKC d kc.1 (kc.2 : ℤ)) db) := by
  rw [foldBump_eq]
  have hview := foldBumpList_view cs db.kind_codes
  have hid : ((cs.foldl (fun l kc => bumpCountStep kc.1 (kc.2 : ℤ) l) db.kind_codes).map
      KindCodesRow.rowid) = db.kind_codes.map KindCodesRow.rowid := by
    have := congrArg (List.map fun e : ℕ × String × String => e.1) hview
    simpa [List.map_map, Function.comp] using this
  have hkey : ((cs.foldl (fun l kc => bumpCountStep kc.1 (kc.2 : ℤ) l) db.kind_codes).map
      fun kr => (kr.kind, kr.codes)) = db.kind_codes.map fun kr => (kr.kind, kr.codes) := by
    have := congrArg (List.map fun e : ℕ × String × String => e.2) hview
    simpa [List.map_map, Function.comp] using this
  refine ⟨hinv.files_id_lt, hinv.files_id_nodup, hinv.files_name_nodup,
    hinv.nuts_fid_lt, ?_, ?_, ?_, hinv.nuts_kcid_lt⟩
  · intro kr hkr
    have hmem : kr.rowid ∈ db.kind_codes.map KindCodesRow.rowid := by
      rw [← hid]
      exact List.mem_map_of_mem _ hkr
    obtain ⟨kr2, hkr2, he⟩ := List.mem_map.mp hmem
    rw [← he]
    exact hinv.kc_id_lt kr2 hkr2
  · rw [hid]
    exact hinv.kc_id_nodup
  · rw [hkey]
    exact hinv.kc_key_nodup

theorem digPrep_inv (db : DB) (c : List Nut) (hinv : DBInv db) : DBInv (digPrep db c) :=
  foldBump_inv _ _ (insertOrIgnoreKC_inv _ db hinv)

theorem mem_bumpCount_self (acc : List ((String × String) × ℕ)) (k : String × String) :
    k ∈ (bumpCount acc k).map Prod.fst := by
  induction acc with
  | nil => simp [bumpCount]
  | cons e rest ih =>
    obtain ⟨k', c⟩ := e
    unfold bumpCount
    by_cases h : k' = k
    · rw [if_pos h]
      simp [h]
    · rw [if_neg h]
      simpa using Or.inr (by simpa using ih)

theorem mem_bumpCount_mono (acc : List ((String × String) × ℕ)) (k x : String × String)
    (hx : x ∈ acc.map Prod.fst) : x ∈ (bumpCount acc k).map Prod.fst := by
  induction acc with
  | nil => simp at hx
  | cons e rest ih =>
    obtain ⟨k', c⟩ := e
    unfold bumpCount
    by_cases h : k' = k
    · rw [if_pos h]
      simpa using (by simpa using hx : x = k' ∨ x ∈ rest.map Prod.fst)
    · rw [if_neg h]
      rcases (by simpa using hx : x = k' ∨ x ∈ rest.map Prod.fst) with h1 | h2
      · simp [h1]
      · simpa using Or.inr (by simpa using ih h2)

theorem foldCounter_mono (c : List Nut) :
    ∀ (acc : List ((String × String) × ℕ)) (x : String × String),
      x ∈ acc.map Prod.fst →
      x ∈ (c.foldl (fun a n => bumpCount a (kcKey n)) acc).map Prod.fst := by
  induction c with
  | nil => intro acc x hx; exact hx
  | cons n rest ih =>
    intro acc x hx
    rw [List.foldl_cons]
    exact ih _ x (mem_bumpCount_mono acc (kcKey n) x hx)

/-- Every input nut's key occurs among the counter's keys. -/
theorem count_kind_codes_mem_keys (c : List Nut) (n : Nut) (hn : n ∈ c) :
    kcKey n ∈ (count_kind_codes c).map Prod.fst := by
  unfold count_kind_codes
  have main : ∀ (cs : List Nut) (acc : List ((String × String) × ℕ)), n ∈ cs →
      kcKey n ∈ (cs.foldl (fun a m => bumpCount a (kcKey m)) acc).map Prod.fst := by
    intro cs
    induction cs with
    | nil => intro acc h; simp at h
    | cons m rest ih =>
      intro acc h
      rw [List.foldl_cons]
      rcases List.mem_cons.mp h with rfl | ht
      · exact foldCounter_mono rest _ _ (mem_bumpCount_self acc (kcKey n))
      · exact ih _ ht
  exact main c [] hn

theorem digPrep_hasKeys (db : DB) (c : List Nut) (n : Nut) (hn : n ∈ c) :
    kcHasKey (digPrep db c) (kcKey n) := by
  unfold digPrep
  rw [foldBump_eq]
  have hview : kcView { insertOrIgnoreKC db ((count_kind_codes c).map Prod.fst) with
      kind_codes := (count_kind_codes c).foldl (fun l kc => bumpCountStep kc.1 (kc.2 : ℤ) l)
        (insertOrIgnoreKC db ((count_kind_codes c).map Prod.fst)).kind_codes } =
      kcView (insertOrIgnoreKC db ((count_kind_codes c).map Prod.fst)) :=
    foldBumpList_view _ _
  rw [kcHasKey_congr _ _ hview]
  apply insertOrIgnoreKC_has
  exact count_kind_codes_mem_keys c n hn

/-! ### Inserting a group's nuts -/

theorem kc_invs_of_view (l₁ l₂ : List KindCodesRow)
    (h : (l₁.map fun kr => (kr.rowid, kr.kind, kr.codes)) =
      l₂.map fun kr => (kr.rowid, kr.kind, kr.codes)) (bound : ℕ)
    (hlt : ∀ kr ∈ l₂, kr.rowid < bound)
    (hidn : (l₂.map KindCodesRow.rowid).Nodup)
    (hkeyn : (l₂.map fun kr => (kr.kind, kr.codes)).Nodup) :
    (∀ kr ∈ l₁, kr.rowid < bound) ∧ (l₁.map KindCodesRow.rowid).Nodup ∧
      (l₁.map fun kr => (kr.kind, kr.codes)).Nodup := by
  have hid : l₁.map KindCodesRow.rowid = l₂.map KindCodesRow.rowid := by
    have h2 := congrArg (List.map fun e : ℕ × String × String => e.1) h
    simpa [List.map_map, Function.comp] using h2
  have hkey : (l₁.map fun kr => (kr.kind, kr.codes)) = l₂.map fun kr => (kr.kind, kr.codes) := by
    have h2 := congrArg (List.map fun e : ℕ × String × String => e.2) h
    simpa [List.map_map, Function.comp] using h2
  refine ⟨?_, by rw [hid]; exact hidn, by rw [hkey]; exact hkeyn⟩
  intro kr hkr
  have hmem : kr.rowid ∈ l₂.map KindCodesRow.rowid := by
    rw [← hid]
    exact List.mem_map_of_mem _ hkr
  obtain ⟨kr2, hkr2, he⟩ := List.mem_map.mp hmem
  rw [← he]
  exact hlt kr2 hkr2

theorem kcResolve_findKCByKey (db : DB) (hidn : (db.kind_codes.map KindCodesRow.rowid).Nodup)
    (kind codes : String) (h : kcHasKey db (kind, codes)) :
    ∃ kr0, findKCByKey db kind codes = some kr0 ∧ kr0 ∈ db.kind_codes ∧
      kcResolve db kr0.rowid = some (kind, codes) := by
  obtain ⟨kr, hkr, hk1, hk2⟩ := h
  have hsome : (db.kind_codes.find? fun kr =>
      decide (kr.kind = kind ∧ kr.codes = codes)).isSome := by
    rw [List.find?_isSome]
    exact ⟨kr, hkr, decide_eq_true ⟨hk1, hk2⟩⟩
  obtain ⟨kr0, hkr0⟩ := Option.isSome_iff_exists.mp hsome
  have hkr0mem : kr0 ∈ db.kind_codes := List.mem_of_find?_eq_some hkr0
  have hkr0p := List.find?_some hkr0
  simp only [decide_eq_true_eq] at hkr0p
  refine ⟨kr0, hkr0, hkr0mem, ?_⟩
  unfold kcResolve
  have hsome2 : (db.kind_codes.find? fun kr2 => decide (kr2.rowid = kr0.rowid)).isSome := by
    rw [List.find?_isSome]
    exact ⟨kr0, hkr0mem, decide_eq_true rfl⟩
  obtain ⟨kr1, hkr1⟩ := Option.isSome_iff_exists.mp hsome2
  have hkr1mem : kr1 ∈ db.kind_codes := List.mem_of_find?_eq_some hkr1
  have hkr1r := List.find?_some hkr1
  simp only [decide_eq_true_eq] at hkr1r
  have heq10 : kr1 = kr0 := List.inj_on_of_nodup_map hidn hkr1mem hkr0mem hkr1r
  rw [hkr1, heq10]
  simp [hkr0p.1, hkr0p.2]

theorem insert_fold (edges : List ℤ) (fid : ℕ) (ns : List Nut) :
    ∀ db : DB,
    (∀ n ∈ ns, ∀ nr ∈ db.nuts, ¬ (nr.file_id = fid ∧
      nr.file_segment = n.file_segment ∧ nr.file_element = n.file_element)) →
    ((ns.map fun n => (n.file_segment, n.file_element)).Nodup) →
    ns.foldlM (fun d n => insertNut edges d fid n) db =
      .ok { db with nuts := db.nuts ++ ns.map fun n => insertedNutRow edges db fid n } := by
  induction ns with
  | nil =>
    intro db _ _
    show Except.ok db = _
    rw [List.map_nil, List.append_nil]
  | cons n ns ih =>
    intro db hno hnd
    rw [List.foldlM_cons]
    have hany : (db.nuts.any fun nr => decide (nr.file_id = fid ∧
        nr.file_segment = n.file_segment ∧ nr.file_element = n.file_element)) = false := by
      rw [List.any_eq_false]
      intro nr hnr
      simp only [decide_eq_true_eq]
      exact fun hc => hno n (List.mem_cons_self n ns) nr hnr hc
    have hstep : insertNut edges db fid n =
        .ok { db with nuts := db.nuts ++ [insertedNutRow edges db fid n] } := by
      unfold insertNut
      rw [hany]
      rfl
    rw [hstep]
    show ns.foldlM (fun d n => insertNut edges d fid n)
      { db with nuts := db.nuts ++ [insertedNutRow edges db fid n] } = _
    rw [ih { db with nuts := db.nuts ++ [insertedNutRow edges db fid n] } ?hno2 ?hnd2]
    case hno2 =>
      intro m hm nr hnr
      rcases List.mem_append.mp hnr with h1 | h2
      · exact hno m (List.mem_cons_of_mem n hm) nr h1
      · simp only [List.mem_singleton] at h2
        rw [h2]
        rintro ⟨-, hseg, helem⟩
        simp only [insertedNutRow] at hseg helem
        have hpair : (n.file_segment, n.file_element) ∈ ns.map fun m =>
            (m.file_segment, m.file_element) := by
          refine List.mem_map.mpr ⟨m, hm, ?_⟩
          rw [← hseg, ← helem]
        have hnd2 := hnd
        rw [List.map_cons, List.nodup_cons] at hnd2
        exact hnd2.1 hpair
    case hnd2 =>
      have hnd2 := hnd
      rw [List.map_cons, List.nodup_cons] at hnd2
      exact hnd2.2
    have hrow : ∀ m : Nut,
        insertedNutRow edges { db with nuts := db.nuts ++ [insertedNutRow edges db fid n] }
          fid m = insertedNutRow edges db fid m := fun m => rfl
    simp only [hrow]
    rw [List.append_assoc]
    rfl

theorem undig_unfold (db : DB) (F : String) :
    undig db F = (db.files.filter fun fr => decide (fr.file_name = F)).flatMap
      fun fr => (db.nuts.filter fun nr => decide (nr.file_id = fr.rowid)).filterMap
        fun nr => joinNutRow db fr nr := rfl

/-! ### Characterization of `digGroup` -/

theorem digGroup_eq_fold (edges : List ℤ) (db : DB) (k : String × String × Option ℚ)
    (ns : List Nut) :
    digGroup edges db k ns =
      ns.foldlM (fun d n => insertNut edges d (deleteFiles db k.1).next_file_rowid n)
        (digGroupMid db k) := rfl

theorem digGroupMid_kcView (db : DB) (k : String × String × Option ℚ) :
    kcView (digGroupMid db k) = kcView (deleteFiles db k.1) := rfl

theorem digGroup_ok (edges : List ℤ) (db : DB) (k : String × String × Option ℚ)
    (ns : List Nut) (hinv : DBInv db)
    (hnd : (ns.map fun n => (n.file_segment, n.file_element)).Nodup) :
    digGroup edges db k ns = .ok (digGroupResult edges db k ns) := by
  obtain ⟨hdf1, hdf2, hdf3, hdf4, hdf5, hdf6⟩ :=
    deleteFiles_spec db k.1 hinv.files_name_nodup hinv.files_id_nodup
  have hstep := insert_fold edges (deleteFiles db k.1).next_file_rowid ns
    (digGroupMid db k) ?hno hnd
  case hno =>
    intro n _ nr hnr
    rintro ⟨hfid, -, -⟩
    have h1 : nr.file_id < db.next_file_rowid :=
      hinv.nuts_fid_lt nr (hdf2.mem hnr)
    rw [hdf4] at hfid
    omega
  rw [digGroup_eq_fold, hstep]
  unfold digGroupResult
  have hrw : ∀ n : Nut,
      insertedNutRow edges (digGroupMid db k) (deleteFiles db k.1).next_file_rowid n =
        insertedNutRow edges db (deleteFiles db k.1).next_file_rowid n := by
    intro n
    apply insertedNutRow_congr
    rw [digGroupMid_kcView, hdf3]
  rw [List.map_congr_left fun n _ => hrw n]

theorem digGroupResult_inv (edges : List ℤ) (db : DB) (k : String × String × Option ℚ)
    (ns : List Nut) (hinv : DBInv db) : DBInv (digGroupResult edges db k ns) := by
  obtain ⟨hdf1, hdf2, hdf3, hdf4, hdf5, hdf6⟩ :=
    deleteFiles_spec db k.1 hinv.files_name_nodup hinv.files_id_nodup
  have hD_files_lt : ∀ fr ∈ (deleteFiles db k.1).files,
      fr.rowid < (deleteFiles db k.1).next_file_rowid := by
    intro fr hfr
    rw [hdf4]
    exact hinv.files_id_lt fr (List.mem_of_mem_filter (hdf1 ▸ hfr))
  have hD_nuts_lt : ∀ nr ∈ (deleteFiles db k.1).nuts,
      nr.file_id < (deleteFiles db k.1).next_file_rowid := by
    intro nr hnr
    rw [hdf4]
    exact hinv.nuts_fid_lt nr (hdf2.mem hnr)
  have hkcinv := kc_invs_of_view (deleteFiles db k.1).kind_codes db.kind_codes hdf3
    db.next_kc_rowid hinv.kc_id_lt hinv.kc_id_nodup hinv.kc_key_nodup
  refine ⟨?_, ?_, ?_, ?_, ?_, ?_, ?_, ?_⟩
  · intro fr hfr
    show fr.rowid < (deleteFiles db k.1).next_file_rowid + 1
    rcases List.mem_append.mp hfr with h1 | h2
    · have := hD_files_lt fr h1
      omega
    · simp only [List.mem_singleton] at h2
      rw [h2]
      exact Nat.lt_succ_self _
  · show (((deleteFiles db k.1).files ++
      [(⟨(deleteFiles db k.1).next_file_rowid, k.1, k.2.1, k.2.2⟩ : FilesRow)]).map FilesRow.rowid).Nodup
    rw [List.map_append]
    apply List.Nodup.append
    · exact hinv.files_id_nodup.sublist ((hdf1 ▸ List.filter_sublist db.files).map _)
    · simp
    · intro r hr1 hr2
      simp only [List.map_cons, List.map_nil, List.mem_singleton] at hr2
      obtain ⟨fr, hfr, hfrr⟩ := List.mem_map.mp hr1
      have := hD_files_lt fr hfr
      rw [hr2] at hfrr
      omega
  · show (((deleteFiles db k.1).files ++
      [(⟨(deleteFiles db k.1).next_file_rowid, k.1, k.2.1, k.2.2⟩ : FilesRow)]).map FilesRow.file_name).Nodup
    rw [List.map_append]
    apply List.Nodup.append
    · exact hinv.files_name_nodup.sublist ((hdf1 ▸ List.filter_sublist db.files).map _)
    · simp
    · intro x hx1 hx2
      simp only [List.map_cons, List.map_nil, List.mem_singleton] at hx2
      obtain ⟨fr, hfr, hfrn⟩ := List.mem_map.mp hx1
      rw [hdf1] at hfr
      have h3 := List.of_mem_filter hfr
      simp only [decide_eq_true_eq] at h3
      exact h3 (by rw [hfrn, hx2])
  · intro nr hnr
    show nr.file_id < (deleteFiles db k.1).next_file_rowid + 1
    rcases List.mem_append.mp hnr with h1 | h2
    · have := hD_nuts_lt nr h1
      omega
    · obtain ⟨n, -, he⟩ := List.mem_map.mp h2
      rw [← he]
      exact Nat.lt_succ_self _
  · show ∀ kr ∈ (deleteFiles db k.1).kind_codes, kr.rowid < (deleteFiles db k.1).next_kc_rowid
    rw [hdf5]
    exact hkcinv.1
  · exact hkcinv.2.1
  · exact hkcinv.2.2
  · intro nr hnr r hr
    show r < (deleteFiles db k.1).next_kc_rowid
    rw [hdf5]
    rcases List.mem_append.mp hnr with h1 | h2
    · exact hinv.nuts_kcid_lt nr (hdf2.mem h1) r hr
    · obtain ⟨n, -, he⟩ := List.mem_map.mp h2
      rw [← he] at hr
      simp only [insertedNutRow] at hr
      rw [Option.map_eq_some'] at hr
      obtain ⟨kr0, hkr0, hkr0r⟩ := hr
      have hkr0mem : kr0 ∈ db.kind_codes := List.mem_of_find?_eq_some hkr0
      rw [← hkr0r]
      exact hinv.kc_id_lt kr0 hkr0mem

theorem digGroupResult_undig_self (edges : List ℤ) (db : DB)
    (k : String × String × Option ℚ) (ns : List Nut) (hinv : DBInv db)
    (hkeys : ∀ n ∈ ns, kcHasKey db (kcKey n))
    (hkk : ∀ n ∈ ns, fileKey n = k) :
    undig (digGroupResult edges db k ns) k.1 = ns := by
  obtain ⟨hdf1, hdf2, hdf3, hdf4, hdf5, hdf6⟩ :=
    deleteFiles_spec db k.1 hinv.files_name_nodup hinv.files_id_nodup
  rw [undig_unfold]
  have hfilter_files : ((digGroupResult edges db k ns).files.filter
      fun fr => decide (fr.file_name = k.1)) =
      [⟨(deleteFiles db k.1).next_file_rowid, k.1, k.2.1, k.2.2⟩] := by
    show (((deleteFiles db k.1).files ++
      [(⟨(deleteFiles db k.1).next_file_rowid, k.1, k.2.1, k.2.2⟩ : FilesRow)]).filter
        fun fr => decide (fr.file_name = k.1)) = _
    rw [List.filter_append]
    have h1 : ((deleteFiles db k.1).files.filter fun fr => decide (fr.file_name = k.1)) = [] := by
      rw [List.filter_eq_nil_iff]
      intro fr hfr
      rw [hdf1] at hfr
      have h2 := List.of_mem_filter hfr
      simp only [decide_eq_true_eq] at h2 ⊢
      exact h2
    rw [h1]
    simp
  rw [hfilter_files]
  simp only [List.flatMap_cons, List.flatMap_nil, List.append_nil]
  have hfilter_nuts : ((digGroupResult edges db k ns).nuts.filter fun nr =>
      decide (nr.file_id =
        (⟨(deleteFiles db k.1).next_file_rowid, k.1, k.2.1, k.2.2⟩ : FilesRow).rowid)) =
      ns.map fun n => insertedNutRow edges db (deleteFiles db k.1).next_file_rowid n := by
    show (((deleteFiles db k.1).nuts ++
      ns.map fun n => insertedNutRow edges db (deleteFiles db k.1).next_file_rowid n).filter
        fun nr => decide (nr.file_id = (deleteFiles db k.1).next_file_rowid)) = _
    rw [List.filter_append]
    have h1 : ((deleteFiles db k.1).nuts.filter fun nr =>
        decide (nr.file_id = (deleteFiles db k.1).next_file_rowid)) = [] := by
      rw [List.filter_eq_nil_iff]
      intro nr hnr
      have h2 : nr.file_id < db.next_file_rowid := hinv.nuts_fid_lt nr (hdf2.mem hnr)
      simp only [decide_eq_true_eq]
      rw [hdf4]
      omega
    have h2 : ((ns.map fun n =>
        insertedNutRow edges db (deleteFiles db k.1).next_file_rowid n).filter
          fun nr => decide (nr.file_id = (deleteFiles db k.1).next_file_rowid)) =
        ns.map fun n => insertedNutRow edges db (deleteFiles db k.1).next_file_rowid n := by
      rw [List.filter_eq_self]
      intro nr hnr
      obtain ⟨n, -, he⟩ := List.mem_map.mp hnr
      rw [← he]
      exact decide_eq_true rfl
    rw [h1, h2, List.nil_append]
  rw [hfilter_nuts, List.filterMap_map]
  have hview : kcView (digGroupResult edges db k ns) = kcView db := by
    show kcView (deleteFiles db k.1) = kcView db
    exact hdf3
  have hpoint : ∀ n ∈ ns,
      joinNutRow (digGroupResult edges db k ns)
        (⟨(deleteFiles db k.1).next_file_rowid, k.1, k.2.1, k.2.2⟩ : FilesRow)
        (insertedNutRow edges db (deleteFiles db k.1).next_file_rowid n) = some n := by
    intro n hn
    obtain ⟨kr0, hkr0, hkr0mem, hres⟩ :=
      kcResolve_findKCByKey db hinv.kc_id_nodup n.kind n.codes (hkeys n hn)
    unfold joinNutRow
    show ((findKCByKey db n.kind n.codes).map KindCodesRow.rowid).bind _ = _
    rw [hkr0]
    simp only [Option.map_some', Option.some_bind]
    rw [kcResolve_congr _ _ hview kr0.rowid, hres]
    simp only [Option.map_some']
    congr 1
    have hkn := hkk n hn
    unfold fileKey at hkn
    rcases n with ⟨nn, nf, nm, nseg, nel, nk, nc, nt1, no1, nt2, no2, nd⟩
    subst hkn
    rfl
  calc (ns.filterMap ((fun nr => joinNutRow (digGroupResult edges db k ns)
          (⟨(deleteFiles db k.1).next_file_rowid, k.1, k.2.1, k.2.2⟩ : FilesRow) nr) ∘
        fun n => insertedNutRow edges db (deleteFiles db k.1).next_file_rowid n))
      = ns.filterMap some := by
        apply List.filterMap_congr
        intro n hn
        exact hpoint n hn
    _ = ns := List.filterMap_some ns

theorem digGroupResult_undig_other (edges : List ℤ) (db : DB)
    (k : String × String × Option ℚ) (ns : List Nut) (hinv : DBInv db)
    (F : String) (hF : ¬ F = k.1) :
    undig (digGroupResult edges db k ns) F = undig db F := by
  obtain ⟨hdf1, hdf2, hdf3, hdf4, hdf5, hdf6⟩ :=
    deleteFiles_spec db k.1 hinv.files_name_nodup hinv.files_id_nodup
  have hview : kcView (digGroupResult edges db k ns) = kcView db := by
    show kcView (deleteFiles db k.1) = kcView db
    exact hdf3
  rw [undig_unfold, undig_unfold]
  have hfiles : ((digGroupResult edges db k ns).files.filter
      fun fr => decide (fr.file_name = F)) =
      db.files.filter fun fr => decide (fr.file_name = F) := by
    show (((deleteFiles db k.1).files ++
      [(⟨(deleteFiles db k.1).next_file_rowid, k.1, k.2.1, k.2.2⟩ : FilesRow)]).filter
        fun fr => decide (fr.file_name = F)) = _
    rw [List.filter_append]
    have h2 : (([⟨(deleteFiles db k.1).next_file_rowid, k.1, k.2.1, k.2.2⟩] :
        List FilesRow).filter fun fr => decide (fr.file_name = F)) = [] := by
      simp only [List.filter_cons, List.filter_nil]
      rw [if_neg]
      simp only [decide_eq_true_eq]
      exact fun hc => hF hc.symm
    rw [h2, List.append_nil, hdf1, List.filter_filter]
    apply List.filter_congr
    intro fr _
    by_cases h3 : fr.file_name = F
    · have h4 : ¬ fr.file_name = k.1 := by rw [h3]; exact fun hc => hF hc
      simp [h3, h4, hF]
    · simp [h3]
  rw [hfiles]
  apply List.flatMap_congr
  intro fr hfr
  have hfrdb : fr ∈ db.files := List.mem_of_mem_filter hfr
  have hfrF : fr.file_name = F := by
    have h2 := List.of_mem_filter hfr
    simpa using h2
  have hfrlt : fr.rowid < db.next_file_rowid := hinv.files_id_lt fr hfrdb
  have hnuts : ((digGroupResult edges db k ns).nuts.filter
      fun nr => decide (nr.file_id = fr.rowid)) =
      db.nuts.filter fun nr => decide (nr.file_id = fr.rowid) := by
    show (((deleteFiles db k.1).nuts ++
      ns.map fun n => insertedNutRow edges db (deleteFiles db k.1).next_file_rowid n).filter
        fun nr => decide (nr.file_id = fr.rowid)) = _
    rw [List.filter_append]
    have h2 : ((ns.map fun n =>
        insertedNutRow edges db (deleteFiles db k.1).next_file_rowid n).filter
          fun nr => decide (nr.file_id = fr.rowid)) = [] := by
      rw [List.filter_eq_nil_iff]
      intro nr hnr
      obtain ⟨n, -, he⟩ := List.mem_map.mp hnr
      rw [← he]
      simp only [insertedNutRow, decide_eq_true_eq]
      rw [hdf4]
      omega
    rw [h2, List.append_nil]
    exact hdf6 fr hfrdb (by rw [hfrF]; exact fun hc => hF hc)
  rw [hnuts]
  apply List.filterMap_congr
  intro nr _
  unfold joinNutRow
  cases hkc : nr.kind_codes_id with
  | none => rfl
  | some r =>
    simp only [Option.some_bind]
    rw [kcResolve_congr _ _ hview r]

/-! ### Characterization of the `by_files` grouping -/

theorem groupOf_cons {α : Type} [DecidableEq α] (e : α × List Nut)
    (rest : List (α × List Nut)) (k : α) :
    groupOf (e :: rest) k = if e.1 = k then e.2 else groupOf rest k := by
  unfold groupOf
  by_cases h : e.1 = k
  · simp [List.find?, h]
  · simp [List.find?, h]

theorem insertGroup_groupOf_self {α : Type} [DecidableEq α]
    (acc : List (α × List Nut)) (k : α) (n : Nut) :
    groupOf (insertGroup acc k n) k = groupOf acc k ++ [n] := by
  induction acc with
  | nil => simp [insertGroup, groupOf, List.find?]
  | cons e rest ih =>
    obtain ⟨k', ns⟩ := e
    unfold insertGroup
    by_cases h : k' = k
    · rw [if_pos h, groupOf_cons, groupOf_cons, if_pos h, if_pos h]
    · rw [if_neg h, groupOf_cons, groupOf_cons, if_neg h, if_neg h]
      exact ih

theorem insertGroup_groupOf_other {α : Type} [DecidableEq α]
    (acc : List (α × List Nut)) (k k' : α) (n : Nut) (h : ¬ k' = k) :
    groupOf (insertGroup acc k n) k' = groupOf acc k' := by
  induction acc with
  | nil =>
    show groupOf [(k, [n])] k' = groupOf [] k'
    rw [groupOf_cons, if_neg (fun hc : k = k' => h hc.symm)]
  | cons e rest ih =>
    obtain ⟨k'', ns⟩ := e
    unfold insertGroup
    by_cases h2 : k'' = k
    · rw [if_pos h2, groupOf_cons, groupOf_cons]
      by_cases h3 : k'' = k'
      · exact absurd (h3.symm.trans h2) h
      · rw [if_neg h3, if_neg h3]
    · rw [if_neg h2, groupOf_cons, groupOf_cons]
      by_cases h3 : k'' = k'
      · rw [if_pos h3, if_pos h3]
      · rw [if_neg h3, if_neg h3]
        exact ih

theorem insertGroup_keys {α : Type} [DecidableEq α]
    (acc : List (α × List Nut)) (k : α) (n : Nut) :
    (insertGroup acc k n).map Prod.fst =
      acc.map Prod.fst ++ (if k ∈ acc.map Prod.fst then [] else [k]) := by
  induction acc with
  | nil => simp [insertGroup]
  | cons e rest ih =>
    obtain ⟨k', ns⟩ := e
    unfold insertGroup
    by_cases h : k' = k
    · rw [if_pos h]
      have hmem : k ∈ ((k', ns) :: rest).map Prod.fst := by
        rw [List.map_cons]
        rw [← h]
        exact List.mem_cons_self _ _
      rw [if_pos hmem, List.append_nil]
      rfl
    · rw [if_neg h]
      by_cases hm : k ∈ rest.map Prod.fst
      · have hm2 : k ∈ ((k', ns) :: rest).map Prod.fst := by
          rw [List.map_cons]
          exact List.mem_cons_of_mem _ hm
        rw [if_pos hm2, List.append_nil, List.map_cons, ih, if_pos hm, List.append_nil,
          List.map_cons]
      · have hm2 : ¬ k ∈ ((k', ns) :: rest).map Prod.fst := by
          rw [List.map_cons]
          intro hc
          rcases List.mem_cons.mp hc with hc | hc
          · exact h hc.symm
          · exact hm hc
        rw [if_neg hm2, List.map_cons, ih, if_neg hm, List.map_cons, List.cons_append]

theorem insertGroup_ne_nil {α : Type} [DecidableEq α]
    (acc : List (α × List Nut)) (k : α) (n : Nut)
    (h : ∀ g ∈ acc, g.2 ≠ []) : ∀ g ∈ insertGroup acc k n, g.2 ≠ [] := by
  induction acc with
  | nil =>
    intro g hg
    simp only [insertGroup, List.mem_singleton] at hg
    rw [hg]
    simp
  | cons e rest ih =>
    obtain ⟨k', ns⟩ := e
    intro g hg
    unfold insertGroup at hg
    by_cases h2 : k' = k
    · rw [if_pos h2] at hg
      rcases List.mem_cons.mp hg with hh | ht
      · rw [hh]
        simp
      · exact h g (List.mem_cons_of_mem _ ht)
    · rw [if_neg h2] at hg
      rcases List.mem_cons.mp hg with hh | ht
      · rw [hh]
        exact h (k', ns) (List.mem_cons_self _ _)
      · exact ih (fun g' hg' => h g' (List.mem_cons_of_mem _ hg')) g ht

theorem foldGroups_groupOf (c : List Nut) :
    ∀ (acc : List ((String × String × Option ℚ) × List Nut))
      (k : String × String × Option ℚ),
    groupOf (c.foldl (fun a n => insertGroup a (fileKey n) n) acc) k =
      groupOf acc k ++ c.filter fun n => decide (fileKey n = k) := by
  induction c with
  | nil =>
    intro acc k
    rw [List.foldl_nil, List.filter_nil, List.append_nil]
  | cons n rest ih =>
    intro acc k
    rw [List.foldl_cons, ih]
    by_cases h : fileKey n = k
    · rw [h, insertGroup_groupOf_self, List.filter_cons,
        if_pos (decide_eq_true h), List.append_assoc, List.singleton_append]
    · rw [insertGroup_groupOf_other acc (fileKey n) k n (fun hc => h hc.symm),
        List.filter_cons, if_neg (by simpa using h)]

theorem foldGroups_keys_nodup (c : List Nut) :
    ∀ acc : List ((String × String × Option ℚ) × List Nut),
    (acc.map Prod.fst).Nodup →
    ((c.foldl (fun a n => insertGroup a (fileKey n) n) acc).map Prod.fst).Nodup := by
  induction c with
  | nil => intro acc h; exact h
  | cons n rest ih =>
    intro acc h
    rw [List.foldl_cons]
    apply ih
    rw [insertGroup_keys]
    by_cases hm : fileKey n ∈ acc.map Prod.fst
    · rw [if_pos hm, List.append_nil]
      exact h
    · rw [if_neg hm]
      apply List.Nodup.append h (by simp)
      intro x hx hx2
      simp only [List.mem_singleton] at hx2
      rw [hx2] at hx
      exact hm hx

theorem foldGroups_ne_nil (c : List Nut) :
    ∀ acc : List ((String × String × Option ℚ) × List Nut),
    (∀ g ∈ acc, g.2 ≠ []) →
    ∀ g ∈ c.foldl (fun a n => insertGroup a (fileKey n) n) acc, g.2 ≠ [] := by
  induction c with
  | nil => intro acc h; exact h
  | cons n rest ih =>
    intro acc h
    rw [List.foldl_cons]
    exact ih _ (insertGroup_ne_nil acc (fileKey n) n h)

theorem foldGroups_mem_keys (c : List Nut) :
    ∀ (acc : List ((String × String × Option ℚ) × List Nut)) (n : Nut), n ∈ c →
    fileKey n ∈ (c.foldl (fun a n => insertGroup a (fileKey n) n) acc).map Prod.fst := by
  have hmono : ∀ (cs : List Nut) (acc : List ((String × String × Option ℚ) × List Nut))
      (x : String × String × Option ℚ), x ∈ acc.map Prod.fst →
      x ∈ (cs.foldl (fun a n => insertGroup a (fileKey n) n) acc).map Prod.fst := by
    intro cs
    induction cs with
    | nil => intro acc x hx; exact hx
    | cons m rest ih =>
      intro acc x hx
      rw [List.foldl_cons]
      apply ih
      rw [insertGroup_keys]
      exact List.mem_append_left _ hx
  induction c with
  | nil => intro acc n hn; exact absurd hn (List.not_mem_nil n)
  | cons m rest ih =>
    intro acc n hn
    rw [List.foldl_cons]
    rcases List.mem_cons.mp hn with rfl | ht
    · apply hmono
      rw [insertGroup_keys]
      by_cases hm : fileKey n ∈ acc.map Prod.fst
      · rw [if_pos hm, List.append_nil]
        exact hm
      · rw [if_neg hm]
        exact List.mem_append_right _ (List.mem_singleton_self _)
    · exact ih _ n ht

theorem find?_eq_of_mem_nodup_keys {α β : Type} [DecidableEq α]
    (l : List (α × β)) (g : α × β) (hg : g ∈ l) (hnd : (l.map Prod.fst).Nodup) :
    l.find? (fun e => decide (e.1 = g.1)) = some g := by
  induction l with
  | nil => exact absurd hg (List.not_mem_nil g)
  | cons e rest ih =>
    rw [List.map_cons, List.nodup_cons] at hnd
    rcases List.mem_cons.mp hg with rfl | ht
    · exact List.find?_cons_of_pos _ (decide_eq_true rfl)
    · have hne : ¬ e.1 = g.1 := by
        intro hc
        exact hnd.1 (by rw [hc]; exact List.mem_map_of_mem Prod.fst ht)
      rw [List.find?_cons_of_neg _ (by simpa using hne)]
      exact ih ht hnd.2

theorem by_files_bucket (c : List Nut)
    (g : (String × String × Option ℚ) × List Nut) (hg : g ∈ by_files c) :
    g.2 = c.filter fun n => decide (fileKey n = g.1) := by
  have hnd : ((by_files c).map Prod.fst).Nodup :=
    foldGroups_keys_nodup c [] (by simp)
  have hfind := find?_eq_of_mem_nodup_keys (by_files c) g hg hnd
  have hgof : groupOf (by_files c) g.1 = g.2 := by
    unfold groupOf
    rw [hfind]
  have hfold : groupOf (by_files c) g.1 =
      groupOf [] g.1 ++ c.filter fun n => decide (fileKey n = g.1) :=
    foldGroups_groupOf c [] g.1
  rw [← hgof, hfold]
  rfl

theorem by_files_ne_nil (c : List Nut)
    (g : (String × String × Option ℚ) × List Nut) (hg : g ∈ by_files c) : g.2 ≠ [] :=
  foldGroups_ne_nil c [] (by simp) g hg

theorem by_files_keys_complete (c : List Nut) (n : Nut) (hn : n ∈ c) :
    fileKey n ∈ (by_files c).map Prod.fst :=
  foldGroups_mem_keys c [] n hn

theorem by_files_key_witness (c : List Nut) (k : String × String × Option ℚ)
    (hk : k ∈ (by_files c).map Prod.fst) : ∃ m ∈ c, fileKey m = k := by
  obtain ⟨g, hg, hgk⟩ := List.mem_map.mp hk
  obtain ⟨m, hm⟩ := List.exists_mem_of_ne_nil _ (by_files_ne_nil c g hg)
  have hb := by_files_bucket c g hg
  rw [hb] at hm
  refine ⟨m, (List.mem_filter.mp hm).1, ?_⟩
  have := (List.mem_filter.mp hm).2
  rw [← hgk]
  exact of_decide_eq_true this

theorem by_files_bucket_key (c : List Nut)
    (g : (String × String × Option ℚ) × List Nut) (hg : g ∈ by_files c) :
    ∀ n ∈ g.2, fileKey n = g.1 := by
  intro n hn
  rw [by_files_bucket c g hg] at hn
  exact of_decide_eq_true (List.mem_filter.mp hn).2

theorem by_files_names_nodup (c : List Nut) (hwf : WFCall c) :
    ((by_files c).map fun g => g.1.1).Nodup := by
  have hnd : ((by_files c).map Prod.fst).Nodup := foldGroups_keys_nodup c [] (by simp)
  have hmaps : ((by_files c).map fun g => g.1.1) =
      ((by_files c).map Prod.fst).map fun k => k.1 := by
    rw [List.map_map]
    rfl
  rw [hmaps]
  apply List.Nodup.map_on ?_ hnd
  intro k1 hk1 k2 hk2 hname
  obtain ⟨n1, hn1c, hn1k⟩ := by_files_key_witness c k1 hk1
  obtain ⟨n2, hn2c, hn2k⟩ := by_files_key_witness c k2 hk2
  have hname12 : n1.file_name = n2.file_name := by
    have e1 : n1.file_name = k1.1 := by rw [← hn1k]; rfl
    have e2 : n2.file_name = k2.1 := by rw [← hn2k]; rfl
    rw [e1, e2, hname]
  obtain ⟨hfmt, hmt⟩ := hwf.1 n1 hn1c n2 hn2c hname12
  rw [← hn1k, ← hn2k]
  unfold fileKey
  rw [hname12, hfmt, hmt]

theorem by_files_bucket_name (c : List Nut) (hwf : WFCall c)
    (g : (String × String × Option ℚ) × List Nut) (hg : g ∈ by_files c) :
    g.2 = c.filter fun n => decide (n.file_name = g.1.1) := by
  obtain ⟨m, hmc, hmk⟩ :=
    by_files_key_witness c g.1 (List.mem_map_of_mem Prod.fst hg)
  rw [by_files_bucket c g hg]
  apply List.filter_congr
  intro x hx
  rw [decide_eq_decide]
  constructor
  · intro h
    rw [← h]
    rfl
  · intro h
    have hnames : x.file_name = m.file_name := by
      have e2 : m.file_name = g.1.1 := by rw [← hmk]; rfl
      rw [h, e2]
    obtain ⟨hfmt, hmt⟩ := hwf.1 x hx m hmc hnames
    rw [← hmk]
    unfold fileKey
    rw [hnames, hfmt, hmt]

theorem by_files_bucket_pairs_nodup (c : List Nut) (hwf : WFCall c)
    (g : (String × String × Option ℚ) × List Nut) (hg : g ∈ by_files c) :
    (g.2.map fun n => (n.file_segment, n.file_element)).Nodup := by
  have hb := by_files_bucket_name c hwf g hg
  have hsub : g.2.Sublist c := by
    rw [hb]
    exact List.filter_sublist c
  have htr : (g.2.map fun n => (n.file_name, n.file_segment, n.file_element)).Nodup :=
    List.Nodup.sublist (List.Sublist.map _ hsub) hwf.2
  have hname : ∀ n ∈ g.2, n.file_name = g.1.1 := by
    intro n hn
    rw [hb] at hn
    exact of_decide_eq_true (List.mem_filter.mp hn).2
  have hcomp : (g.2.map fun n => (n.file_segment, n.file_element)) =
      (g.2.map fun n => (n.file_name, n.file_segment, n.file_element)).map
        fun t => t.2 := by
    rw [List.map_map]
    rfl
  rw [hcomp]
  apply List.Nodup.map_on ?_ htr
  intro t1 ht1 t2 ht2 he
  obtain ⟨m1, hm1, he1⟩ := List.mem_map.mp ht1
  obtain ⟨m2, hm2, he2⟩ := List.mem_map.mp ht2
  have h1 : t1.1 = g.1.1 := by rw [← he1]; exact hname m1 hm1
  have h2 : t2.1 = g.1.1 := by rw [← he2]; exact hname m2 hm2
  have : t1.1 = t2.1 := by rw [h1, h2]
  calc t1 = (t1.1, t1.2) := rfl
    _ = (t2.1, t2.2) := by rw [this, he]
    _ = t2 := rfl

/-! ### The group phase and the `dig` round-trip -/

theorem find?_cons_ite {α : Type} (p : α → Bool) (a : α) (l : List α) :
    (a :: l).find? p = if p a then some a else l.find? p := by
  rw [List.find?_cons]
  cases p a with
  | true => rfl
  | false => rfl

theorem digGroupResult_kcView (edges : List ℤ) (db : DB)
    (k : String × String × Option ℚ) (ns : List Nut) (hinv : DBInv db) :
    kcView (digGroupResult edges db k ns) = kcView db := by
  show kcView (deleteFiles db k.1) = kcView db
  exact (deleteFiles_spec db k.1 hinv.files_name_nodup hinv.files_id_nodup).2.2.1

theorem groupsFold_spec (edges : List ℤ)
    (grps : List ((String × String × Option ℚ) × List Nut)) :
    ∀ d : DB, DBInv d →
    (∀ g ∈ grps, ∀ n ∈ g.2, kcHasKey d (kcKey n)) →
    (∀ g ∈ grps, ∀ n ∈ g.2, fileKey n = g.1) →
    (∀ g ∈ grps, (g.2.map fun n => (n.file_segment, n.file_element)).Nodup) →
    ((grps.map fun g => g.1.1).Nodup) →
    ∃ d', grps.foldlM (fun d g => digGroup edges d g.1 g.2) d = .ok d' ∧ DBInv d' ∧
      ∀ F : String,
        undig d' F = match grps.find? fun g => decide (g.1.1 = F) with
          | some g => g.2
          | none => undig d F := by
  induction grps with
  | nil =>
    intro d hinv _ _ _ _
    exact ⟨d, rfl, hinv, fun F => rfl⟩
  | cons g rest ih =>
    intro d hinv hkeys hkk hnd hnames
    have hstep := digGroup_ok edges d g.1 g.2 hinv (hnd g (List.mem_cons_self g rest))
    have hinv1 := digGroupResult_inv edges d g.1 g.2 hinv
    have hview1 := digGroupResult_kcView edges d g.1 g.2 hinv
    obtain ⟨d', hfold, hinv', hundig⟩ := ih (digGroupResult edges d g.1 g.2) hinv1
      (fun g' hg' n hn => (kcHasKey_congr _ _ hview1 (kcKey n)).mpr
        (hkeys g' (List.mem_cons_of_mem g hg') n hn))
      (fun g' hg' => hkk g' (List.mem_cons_of_mem g hg'))
      (fun g' hg' => hnd g' (List.mem_cons_of_mem g hg'))
      (by
        have := hnames
        rw [List.map_cons, List.nodup_cons] at this
        exact this.2)
    refine ⟨d', ?_, hinv', ?_⟩
    · rw [List.foldlM_cons, hstep]
      show rest.foldlM (fun d g => digGroup edges d g.1 g.2)
        (digGroupResult edges d g.1 g.2) = .ok d'
      exact hfold
    · intro F
      rw [hundig F]
      by_cases hFg : g.1.1 = F
      · rw [find?_cons_ite (fun g' => decide (g'.1.1 = F)) g rest,
          if_pos (decide_eq_true hFg)]
        have hrest : (rest.find? fun g' => decide (g'.1.1 = F)) = none := by
          rw [List.find?_eq_none]
          intro g' hg'
          simp only [decide_eq_true_eq]
          intro hc
          have hmem := hnames
          rw [List.map_cons, List.nodup_cons] at hmem
          exact hmem.1 (by rw [hFg, ← hc]; exact List.mem_map_of_mem _ hg')
        rw [hrest]
        show undig (digGroupResult edges d g.1 g.2) F = g.2
        rw [← hFg]
        exact digGroupResult_undig_self edges d g.1 g.2 hinv
          (hkeys g (List.mem_cons_self g rest)) (hkk g (List.mem_cons_self g rest))
      · rw [find?_cons_ite (fun g' => decide (g'.1.1 = F)) g rest,
          if_neg (by simpa using hFg)]
        cases hr : rest.find? fun g' => decide (g'.1.1 = F) with
        | some g' => rfl
        | none =>
          show undig (digGroupResult edges d g.1 g.2) F = undig d F
          exact digGroupResult_undig_other edges d g.1 g.2 hinv F (fun hc => hFg hc.symm)

theorem dig_spec (edges : List ℤ) (db : DB) (c : List Nut) (hinv : DBInv db)
    (hwf : WFCall c) :
    ∃ db', dig edges db c = .ok db' ∧ DBInv db' ∧
      ∀ F : String, undig db' F =
        if c.any fun n => decide (n.file_name = F) then
          c.filter fun n => n.file_name = F
        else undig db F := by
  by_cases hc : c.isEmpty
  · have hcnil : c = [] := by
      cases c with
      | nil => rfl
      | cons a l => exact absurd hc (by simp)
    subst hcnil
    refine ⟨db, ?_, hinv, ?_⟩
    · rfl
    · intro F
      rw [if_neg (by simp)]
  · have hfalse : c.isEmpty = false := by
      revert hc
      cases c.isEmpty with
      | true => intro hc; exact absurd rfl hc
      | false => intro _; rfl
    have hdig : dig edges db c =
        (by_files c).foldlM (fun d g => digGroup edges d g.1 g.2) (digPrep db c) := by
      unfold dig
      rw [hfalse]
      rfl
    obtain ⟨d', hfold, hinv', hund⟩ := groupsFold_spec edges (by_files c) (digPrep db c)
      (digPrep_inv db c hinv)
      (fun g hg n hn => digPrep_hasKeys db c n
        (List.mem_of_mem_filter (by rw [← by_files_bucket c g hg]; exact hn)))
      (fun g hg => by_files_bucket_key c g hg)
      (fun g hg => by_files_bucket_pairs_nodup c hwf g hg)
      (by_files_names_nodup c hwf)
    refine ⟨d', by rw [hdig]; exact hfold, hinv', ?_⟩
    intro F
    rw [hund F]
    by_cases hany : c.any fun n => decide (n.file_name = F)
    · rw [if_pos hany]
      obtain ⟨n0, hn0, hn0F⟩ := List.any_eq_true.mp hany
      have hn0F' : n0.file_name = F := of_decide_eq_true hn0F
      have hkmem := by_files_keys_complete c n0 hn0
      obtain ⟨g0, hg0, hg0k⟩ := List.mem_map.mp hkmem
      have hsome : ((by_files c).find? fun g => decide (g.1.1 = F)).isSome := by
        rw [List.find?_isSome]
        refine ⟨g0, hg0, decide_eq_true ?_⟩
        show g0.1.1 = F
        rw [hg0k]
        exact hn0F'
      obtain ⟨g1, hg1⟩ := Option.isSome_iff_exists.mp hsome
      rw [hg1]
      have hg1mem : g1 ∈ by_files c := List.mem_of_find?_eq_some hg1
      have hg1F : g1.1.1 = F := by
        have := List.find?_some hg1
        simpa using this
      show g1.2 = _
      rw [by_files_bucket_name c hwf g1 hg1mem, hg1F]
    · have hnone : ((by_files c).find? fun g => decide (g.1.1 = F)) = none := by
        rw [List.find?_eq_none]
        intro g hg
        simp only [decide_eq_true_eq]
        intro hgF
        obtain ⟨n1, hn1c, hn1k⟩ :=
          by_files_key_witness c g.1 (List.mem_map_of_mem Prod.fst hg)
        apply hany
        refine List.any_eq_true.mpr ⟨n1, hn1c, decide_eq_true ?_⟩
        show n1.file_name = F
        calc n1.file_name = (fileKey n1).1 := rfl
          _ = g.1.1 := by rw [hn1k]
          _ = F := hgF
      rw [hnone, if_neg hany]
      show undig (digPrep db c) F = undig db F
      exact undig_stable db (digPrep db c) (digPrep_spec db c).1 (digPrep_spec db c).2.1
        (fun nr hnr r hr => kcResolve_digPrep db c r (hinv.nuts_kcid_lt nr hnr r hr)) F

theorem digAll_spec (edges : List ℤ) (calls : List (List Nut)) :
    ∀ db : DB, DBInv db → (∀ c ∈ calls, WFCall c) →
    ∃ db', digAll edges db calls = .ok db' ∧ DBInv db' ∧
      ∀ F : String, undig db' F = calls.foldl (fun acc c =>
        if c.any (fun n => decide (n.file_name = F)) then
          c.filter fun n => n.file_name = F
        else acc) (undig db F) := by
  induction calls with
  | nil =>
    intro db hinv _
    exact ⟨db, rfl, hinv, fun F => rfl⟩
  | cons c rest ih =>
    intro db hinv hwf
    obtain ⟨d1, hd1, hinv1, hu1⟩ := dig_spec edges db c hinv (hwf c (List.mem_cons_self c rest))
    obtain ⟨db', hfold, hinv', hund⟩ :=
      ih d1 hinv1 (fun c' hc' => hwf c' (List.mem_cons_of_mem c hc'))
    refine ⟨db', ?_, hinv', ?_⟩
    · show (c :: rest).foldlM (fun d c => dig edges d c) db = .ok db'
      rw [List.foldlM_cons, hd1]
      show rest.foldlM (fun d c => dig edges d c) d1 = .ok db'
      exact hfold
    · intro F
      rw [hund F, hu1 F, List.foldl_cons]

theorem emptyDB_inv : DBInv emptyDB :=
  ⟨fun fr h => absurd h (List.not_mem_nil fr), List.nodup_nil, List.nodup_nil,
   fun nr h => absurd h (List.not_mem_nil nr), fun kr h => absurd h (List.not_mem_nil kr),
   List.nodup_nil, List.nodup_nil, fun nr h => absurd h (List.not_mem_nil nr)⟩

/-- C2: per-file replace semantics of a `dig` sequence — corrected.  Under
per-call input well-formedness (`WFCall`: nuts of one file name in a call
share `file_format` and `file_mtime`, and the `(file_name, file_segment,
file_element)` primary-key triples are pairwise distinct), after any
successful sequence of `dig` calls starting from a fresh store,
`undig F` returns exactly the nuts supplied for `F` by the most recent call
whose input contained nuts for `F`, with no residue from earlier calls.
Without `WFCall` the unqualified claim fails: see the counterexample
`dig_same_name_two_mtimes_in_one_call_loses_nuts`. -/
theorem dig_replace_semantics (edges : List ℤ) (calls : List (List Nut))
    (hwf : ∀ c ∈ calls, WFCall c) (db : DB)
    (h : digAll edges emptyDB calls = .ok db) (F : String) :
    undig db F = lastDigFor F calls := by
  obtain ⟨db', hd, -, hu⟩ := digAll_spec edges calls emptyDB emptyDB_inv hwf
  rw [hd] at h
  have he : db' = db := Except.ok.inj h
  rw [← he, hu F]
  rfl

theorem dig_replace_semantics_witness :
    (∀ c ∈ exCallsRedig, WFCall c) ∧
    undig exDBredig "a" = lastDigFor "a" exCallsRedig ∧
    lastDigFor "a" exCallsRedig = [exNutA'] :=
  ⟨by with_unfolding_all decide,
   dig_replace_semantics exEdges exCallsRedig (by with_unfolding_all decide) exDBredig
     (by with_unfolding_all rfl) "a",
   by with_unfolding_all rfl⟩

/-- C2 counterexample: the unqualified claim is false.  One `dig` call
supplies two nuts for file name `a` under two different mtimes; `by_files`
makes them two groups of the same name, the second group's delete removes
the first group's freshly inserted file row, and `undig "a"` returns only
the second group's nut — not "exactly the nuts supplied for `a` in the most
recent dig whose input contained nuts for `a`". -/
theorem dig_same_name_two_mtimes_in_one_call_loses_nuts :
    exNutA.file_name = "a" ∧ exNutA'.file_name = "a" ∧
    digAll exEdges emptyDB exCallsClash = .ok exDBclash ∧
    undig exDBclash "a" = [exNutA'] ∧
    ¬ undig exDBclash "a" = [exNutA, exNutA'] := by
  refine ⟨rfl, rfl, by with_unfolding_all rfl, by with_unfolding_all rfl, ?_⟩
  with_unfolding_all decide

/-! ### Reference-count bookkeeping (C7) -/

theorem countKeyNuts_cons (n : Nut) (ns : List Nut) (K : String × String) :
    countKeyNuts (n :: ns) K = (if kcKey n = K then 1 else 0) + countKeyNuts ns K := by
  unfold countKeyNuts
  by_cases h : kcKey n = K
  · rw [List.filter_cons, if_pos (decide_eq_true h), if_pos h, List.length_cons]
    omega
  · rw [List.filter_cons, if_neg (by simpa using h), if_neg h, zero_add]

theorem countKeyNuts_append (a b : List Nut) (K : String × String) :
    countKeyNuts (a ++ b) K = countKeyNuts a K + countKeyNuts b K := by
  unfold countKeyNuts
  rw [List.filter_append, List.length_append]

theorem sumMatch_cons (e : (String × String) × ℕ) (cs : List ((String × String) × ℕ))
    (K : String × String) :
    sumMatch (e :: cs) K = (if e.1 = K then (e.2 : ℤ) else 0) + sumMatch cs K := by
  unfold sumMatch
  by_cases h : e.1 = K
  · rw [List.filter_cons, if_pos (decide_eq_true h), List.map_cons, List.sum_cons, if_pos h]
  · rw [List.filter_cons, if_neg (by simpa using h), if_neg h, zero_add]

theorem sumMatch_bumpCount (acc : List ((String × String) × ℕ)) (K0 K : String × String) :
    sumMatch (bumpCount acc K0) K = sumMatch acc K + (if K0 = K then 1 else 0) := by
  induction acc with
  | nil =>
    show sumMatch [(K0, 1)] K = sumMatch [] K + (if K0 = K then 1 else 0)
    rw [sumMatch_cons]
    by_cases h : K0 = K
    · rw [if_pos h, if_pos h]
      have h0 : sumMatch [] K = 0 := rfl
      rw [h0]
      ring
    · rw [if_neg h, if_neg h]
      ring
  | cons e rest ih =>
    obtain ⟨k', c⟩ := e
    unfold bumpCount
    by_cases h : k' = K0
    · rw [if_pos h, sumMatch_cons, sumMatch_cons]
      subst h
      by_cases h2 : k' = K
      · rw [if_pos h2, if_pos h2, if_pos h2]
        push_cast
        ring
      · rw [if_neg h2, if_neg h2, if_neg h2]
        ring
    · rw [if_neg h, sumMatch_cons, sumMatch_cons, ih]
      ring

theorem sumMatch_count_kind_codes (c : List Nut) (K : String × String) :
    sumMatch (count_kind_codes c) K = (countKeyNuts c K : ℤ) := by
  have main : ∀ (cs : List Nut) (acc : List ((String × String) × ℕ)),
      sumMatch (cs.foldl (fun a n => bumpCount a (kcKey n)) acc) K =
        sumMatch acc K + (countKeyNuts cs K : ℤ) := by
    intro cs
    induction cs with
    | nil =>
      intro acc
      show sumMatch acc K = sumMatch acc K + (countKeyNuts [] K : ℤ)
      have h0 : countKeyNuts [] K = 0 := rfl
      rw [h0]
      push_cast
      ring
    | cons n rest ih =>
      intro acc
      rw [List.foldl_cons, ih, sumMatch_bumpCount, countKeyNuts_cons]
      by_cases h : kcKey n = K
      · rw [if_pos h, if_pos h]
        push_cast
        ring
      · rw [if_neg h, if_neg h]
        push_cast
        ring
  unfold count_kind_codes
  rw [main c []]
  have h0 : sumMatch [] K = 0 := rfl
  rw [h0, zero_add]

theorem foldBump_map (cs : List ((String × String) × ℕ)) :
    ∀ l : List KindCodesRow,
    cs.foldl (fun l kc => bumpCountStep kc.1 (kc.2 : ℤ) l) l =
      l.map fun kr => { kr with count := kr.count + sumMatch cs (kr.kind, kr.codes) } := by
  induction cs with
  | nil =>
    intro l
    symm
    calc l.map (fun kr => { kr with count := kr.count + sumMatch [] (kr.kind, kr.codes) })
        = l.map (fun kr => kr) :=
          List.map_congr_left (fun kr _ => by cases kr; simp [sumMatch])
      _ = l := by simp
  | cons kc cs ih =>
    intro l
    rw [List.foldl_cons, ih]
    unfold bumpCountStep
    rw [List.map_map]
    apply List.map_congr_left
    intro kr _
    by_cases h : kr.kind = kc.1.1 ∧ kr.codes = kc.1.2
    · have hkey : kc.1 = (kr.kind, kr.codes) := by
        rw [h.1, h.2]
      have hik : (if kr.kind = kc.1.1 ∧ kr.codes = kc.1.2 then
          ({ kr with count := kr.count + (kc.2 : ℤ) } : KindCodesRow) else kr) =
          { kr with count := kr.count + (kc.2 : ℤ) } := if_pos h
      show (fun x : KindCodesRow => { x with count := x.count + sumMatch cs (x.kind, x.codes) })
        (if kr.kind = kc.1.1 ∧ kr.codes = kc.1.2 then
          ({ kr with count := kr.count + (kc.2 : ℤ) } : KindCodesRow) else kr) = _
      rw [hik]
      show KindCodesRow.mk kr.rowid kr.kind kr.codes
          (kr.count + (kc.2 : ℤ) + sumMatch cs (kr.kind, kr.codes)) =
        KindCodesRow.mk kr.rowid kr.kind kr.codes
          (kr.count + sumMatch (kc :: cs) (kr.kind, kr.codes))
      apply congrArg
      rw [sumMatch_cons, if_pos hkey]
      ring
    · have hkey : ¬ kc.1 = (kr.kind, kr.codes) := by
        intro he
        exact h ⟨(congrArg Prod.fst he).symm, (congrArg Prod.snd he).symm⟩
      have hik : (if kr.kind = kc.1.1 ∧ kr.codes = kc.1.2 then
          ({ kr with count := kr.count + (kc.2 : ℤ) } : KindCodesRow) else kr) = kr :=
        if_neg h
      show (fun x : KindCodesRow => { x with count := x.count + sumMatch cs (x.kind, x.codes) })
        (if kr.kind = kc.1.1 ∧ kr.codes = kc.1.2 then
          ({ kr with count := kr.count + (kc.2 : ℤ) } : KindCodesRow) else kr) = _
      rw [hik]
      show KindCodesRow.mk kr.rowid kr.kind kr.codes
          (kr.count + sumMatch cs (kr.kind, kr.codes)) =
        KindCodesRow.mk kr.rowid kr.kind kr.codes
          (kr.count + sumMatch (kc :: cs) (kr.kind, kr.codes))
      apply congrArg
      rw [sumMatch_cons, if_neg hkey, zero_add]

theorem foldDec_map (rs : List NutsRow) :
    ∀ l : List KindCodesRow,
    rs.foldl (fun l nr => decCountStep nr.kind_codes_id l) l =
      l.map fun kr => { kr with count := kr.count -
        ((rs.filter fun m => decide (m.kind_codes_id = some kr.rowid)).length : ℤ) } := by
  induction rs with
  | nil =>
    intro l
    symm
    calc l.map (fun kr => { kr with count := kr.count -
          ((([] : List NutsRow).filter
            fun m => decide (m.kind_codes_id = some kr.rowid)).length : ℤ) })
        = l.map (fun kr => kr) := List.map_congr_left (fun kr _ => by cases kr; simp)
      _ = l := by simp
  | cons nr rs ih =>
    intro l
    rw [List.foldl_cons, ih]
    unfold decCountStep
    rw [List.map_map]
    apply List.map_congr_left
    intro kr _
    by_cases h : nr.kind_codes_id = some kr.rowid
    · have hik : (if nr.kind_codes_id = some kr.rowid then
          ({ kr with count := kr.count - 1 } : KindCodesRow) else kr) =
          { kr with count := kr.count - 1 } := if_pos h
      show (fun x : KindCodesRow => { x with count := x.count -
          ((rs.filter fun m : NutsRow => decide (m.kind_codes_id = some x.rowid)).length : ℤ) })
        (if nr.kind_codes_id = some kr.rowid then
          ({ kr with count := kr.count - 1 } : KindCodesRow) else kr) = _
      rw [hik]
      show KindCodesRow.mk kr.rowid kr.kind kr.codes
          (kr.count - 1 -
            ((rs.filter fun m => decide (m.kind_codes_id = some kr.rowid)).length : ℤ)) =
        KindCodesRow.mk kr.rowid kr.kind kr.codes
          (kr.count -
            (((nr :: rs).filter fun m => decide (m.kind_codes_id = some kr.rowid)).length : ℤ))
      apply congrArg
      rw [List.filter_cons, if_pos (decide_eq_true h), List.length_cons]
      push_cast
      ring
    · have hik : (if nr.kind_codes_id = some kr.rowid then
          ({ kr with count := kr.count - 1 } : KindCodesRow) else kr) = kr := if_neg h
      show (fun x : KindCodesRow => { x with count := x.count -
          ((rs.filter fun m : NutsRow => decide (m.kind_codes_id = some x.rowid)).length : ℤ) })
        (if nr.kind_codes_id = some kr.rowid then
          ({ kr with count := kr.count - 1 } : KindCodesRow) else kr) = _
      rw [hik]
      show KindCodesRow.mk kr.rowid kr.kind kr.codes
          (kr.count -
            ((rs.filter fun m => decide (m.kind_codes_id = some kr.rowid)).length : ℤ)) =
        KindCodesRow.mk kr.rowid kr.kind kr.codes
          (kr.count -
            (((nr :: rs).filter fun m => decide (m.kind_codes_id = some kr.rowid)).length : ℤ))
      apply congrArg
      rw [List.filter_cons, if_neg (by simpa using h)]

theorem nuts_split_by_file (l : List NutsRow) (rid : ℕ) (r : ℕ) :
    ((l.filter fun nr => decide (nr.kind_codes_id = some r)).length) =
      (((l.filter fun nr => decide (nr.file_id = rid)).filter
          fun m => decide (m.kind_codes_id = some r)).length) +
      (((l.filter fun nr => decide (¬ nr.file_id = rid)).filter
          fun nr => decide (nr.kind_codes_id = some r)).length) := by
  induction l with
  | nil => rfl
  | cons a l ih =>
    by_cases hf : a.file_id = rid <;> by_cases hk : a.kind_codes_id = some r
    · rw [List.filter_cons, if_pos (decide_eq_true hk)]
      rw [List.filter_cons, if_pos (decide_eq_true hf)]
      rw [List.filter_cons, if_pos (decide_eq_true hk)]
      rw [List.filter_cons, if_neg (by simp [hf])]
      rw [List.length_cons, List.length_cons]
      omega
    · rw [List.filter_cons, if_neg (by simpa using hk)]
      rw [List.filter_cons, if_pos (decide_eq_true hf)]
      rw [List.filter_cons, if_neg (by simpa using hk)]
      rw [List.filter_cons, if_neg (by simp [hf])]
      omega
    · rw [List.filter_cons, if_pos (decide_eq_true hk)]
      rw [List.filter_cons, if_neg (by simpa using hf)]
      rw [List.filter_cons, if_pos (by simp [hf])]
      rw [List.filter_cons, if_pos (decide_eq_true hk)]
      rw [List.length_cons, List.length_cons]
      omega
    · rw [List.filter_cons, if_neg (by simpa using hk)]
      rw [List.filter_cons, if_neg (by simpa using hf)]
      rw [List.filter_cons, if_pos (by simp [hf])]
      rw [List.filter_cons, if_neg (by simpa using hk)]
      omega

theorem cascade_gap (db : DB) (fr : FilesRow) (P : ℕ → String → String → ℤ → Prop)
    (hP : ∀ kr ∈ db.kind_codes, P kr.rowid kr.kind kr.codes
      (kr.count - (refCount db kr.rowid : ℤ))) :
    ∀ kr ∈ (cascadeDeleteFileRow db fr).kind_codes, P kr.rowid kr.kind kr.codes
      (kr.count - (refCount (cascadeDeleteFileRow db fr) kr.rowid : ℤ)) := by
  intro kr hkr
  have hkc : (cascadeDeleteFileRow db fr).kind_codes =
      (db.nuts.filter fun nr => nr.file_id = fr.rowid).foldl
        (fun l nr => decCountStep nr.kind_codes_id l) db.kind_codes := by
    rw [cascade_eq]
  rw [hkc, foldDec_map] at hkr
  obtain ⟨kr0, hkr0, he⟩ := List.mem_map.mp hkr
  have hrowid : kr.rowid = kr0.rowid := by rw [← he]
  have hkind : kr.kind = kr0.kind := by rw [← he]
  have hcodes : kr.codes = kr0.codes := by rw [← he]
  have hcount : kr.count = kr0.count -
      (((db.nuts.filter fun nr => decide (nr.file_id = fr.rowid)).filter
        fun m => decide (m.kind_codes_id = some kr0.rowid)).length : ℤ) := by
    rw [← he]
  have hrcC : refCount (cascadeDeleteFileRow db fr) kr0.rowid =
      ((db.nuts.filter fun nr => decide (¬ nr.file_id = fr.rowid)).filter
        fun nr => decide (nr.kind_codes_id = some kr0.rowid)).length := by
    unfold refCount
    rw [cascade_eq]
  have hrc0 : refCount db kr0.rowid =
      (db.nuts.filter fun nr => decide (nr.kind_codes_id = some kr0.rowid)).length := rfl
  have hsplit := nuts_split_by_file db.nuts fr.rowid kr0.rowid
  rw [hrowid, hkind, hcodes]
  have hgap : kr.count - (refCount (cascadeDeleteFileRow db fr) kr0.rowid : ℤ) =
      kr0.count - (refCount db kr0.rowid : ℤ) := by
    rw [hcount, hrcC, hrc0, hsplit]
    push_cast
    ring
  rw [hgap]
  exact hP kr0 hkr0

theorem cascadeFold_gap (P : ℕ → String → String → ℤ → Prop) (frs : List FilesRow) :
    ∀ db : DB, (∀ kr ∈ db.kind_codes, P kr.rowid kr.kind kr.codes
      (kr.count - (refCount db kr.rowid : ℤ))) →
    ∀ kr ∈ (frs.foldl cascadeDeleteFileRow db).kind_codes, P kr.rowid kr.kind kr.codes
      (kr.count - (refCount (frs.foldl cascadeDeleteFileRow db) kr.rowid : ℤ)) := by
  induction frs with
  | nil => intro db h; exact h
  | cons fr frs ih =>
    intro db h
    rw [List.foldl_cons]
    exact ih _ (cascade_gap db fr P h)

theorem deleteFiles_gap (db : DB) (name : String) (P : ℕ → String → String → ℤ → Prop)
    (hP : ∀ kr ∈ db.kind_codes, P kr.rowid kr.kind kr.codes
      (kr.count - (refCount db kr.rowid : ℤ))) :
    ∀ kr ∈ (deleteFiles db name).kind_codes, P kr.rowid kr.kind kr.codes
      (kr.count - (refCount (deleteFiles db name) kr.rowid : ℤ)) :=
  cascadeFold_gap P (db.files.filter fun fr => decide (fr.file_name = name)) db hP

theorem inserted_refCount (edges : List ℤ) (db : DB) (fid : ℕ) (hinv : DBInv db)
    (r : ℕ) (kind codes : String) (hmem : (r, kind, codes) ∈ kcView db) :
    ∀ ns : List Nut, (∀ n ∈ ns, kcHasKey db (kcKey n)) →
    ((ns.map fun n => insertedNutRow edges db fid n).filter
        fun nr => decide (nr.kind_codes_id = some r)).length =
      countKeyNuts ns (kind, codes) := by
  obtain ⟨krx, hkrx, hkrxe⟩ := List.mem_map.mp hmem
  have hxr : krx.rowid = r := congrArg Prod.fst hkrxe
  have hxkind : krx.kind = kind := congrArg (fun e : ℕ × String × String => e.2.1) hkrxe
  have hxcodes : krx.codes = codes := congrArg (fun e : ℕ × String × String => e.2.2) hkrxe
  intro ns
  induction ns with
  | nil => intro _; rfl
  | cons n ns ih =>
    intro hkeys
    obtain ⟨kr0, hkr0, hkr0mem, -⟩ :=
      kcResolve_findKCByKey db hinv.kc_id_nodup n.kind n.codes
        (hkeys n (List.mem_cons_self n ns))
    have hkey0 : kr0.kind = n.kind ∧ kr0.codes = n.codes := by
      have := List.find?_some hkr0
      simpa using this
    have hid : (insertedNutRow edges db fid n).kind_codes_id = some kr0.rowid := by
      show (findKCByKey db n.kind n.codes).map KindCodesRow.rowid = _
      rw [hkr0]
      rfl
    rw [List.map_cons, List.filter_cons]
    by_cases hKK : kcKey n = (kind, codes)
    · have hkr0x : kr0 = krx := by
        apply List.inj_on_of_nodup_map hinv.kc_key_nodup hkr0mem hkrx
        show (kr0.kind, kr0.codes) = (krx.kind, krx.codes)
        rw [hkey0.1, hkey0.2, hxkind, hxcodes]
        exact hKK
      rw [if_pos (by rw [hid, hkr0x, hxr]; exact decide_eq_true rfl), List.length_cons,
        ih (fun m hm => hkeys m (List.mem_cons_of_mem n hm)), countKeyNuts_cons, if_pos hKK]
      omega
    · have hne : ¬ (insertedNutRow edges db fid n).kind_codes_id = some r := by
        rw [hid]
        intro hc
        have hre : kr0.rowid = krx.rowid := by
          rw [hxr]
          exact Option.some.inj hc
        have heq : kr0 = krx := List.inj_on_of_nodup_map hinv.kc_id_nodup hkr0mem hkrx hre
        apply hKK
        show (n.kind, n.codes) = (kind, codes)
        rw [← hkey0.1, ← hkey0.2, heq, hxkind, hxcodes]
      rw [if_neg (by simpa using hne), ih (fun m hm => hkeys m (List.mem_cons_of_mem n hm)), countKeyNuts_cons, if_neg hKK, zero_add]

theorem digGroupResult_pending (edges : List ℤ) (db : DB) (k : String × String × Option ℚ)
    (ns : List Nut) (p : String × String → ℕ) (hinv : DBInv db)
    (hkeys : ∀ n ∈ ns, kcHasKey db (kcKey n))
    (hcp : ∀ kr ∈ db.kind_codes, kr.count = (refCount db kr.rowid : ℤ) +
      (countKeyNuts ns (kr.kind, kr.codes) : ℤ) + (p (kr.kind, kr.codes) : ℤ)) :
    ∀ kr ∈ (digGroupResult edges db k ns).kind_codes, kr.count =
      (refCount (digGroupResult edges db k ns) kr.rowid : ℤ) +
        (p (kr.kind, kr.codes) : ℤ) := by
  intro kr hkr
  have hkrD : kr ∈ (deleteFiles db k.1).kind_codes := hkr
  have hgapD : kr.count - (refCount (deleteFiles db k.1) kr.rowid : ℤ) =
      (countKeyNuts ns (kr.kind, kr.codes) : ℤ) + (p (kr.kind, kr.codes) : ℤ) :=
    deleteFiles_gap db k.1 (fun r kind codes gap =>
        gap = (countKeyNuts ns (kind, codes) : ℤ) + (p (kind, codes) : ℤ))
      (fun kr0 hkr0 => by
        show kr0.count - (refCount db kr0.rowid : ℤ) =
          (countKeyNuts ns (kr0.kind, kr0.codes) : ℤ) + (p (kr0.kind, kr0.codes) : ℤ)
        have := hcp kr0 hkr0
        omega) kr hkrD
  have hdf3 := (deleteFiles_spec db k.1 hinv.files_name_nodup hinv.files_id_nodup).2.2.1
  have hmem : (kr.rowid, kr.kind, kr.codes) ∈ kcView db := by
    rw [← hdf3]
    exact List.mem_map_of_mem _ hkrD
  have hins := inserted_refCount edges db (deleteFiles db k.1).next_file_rowid hinv
    kr.rowid kr.kind kr.codes hmem ns hkeys
  have hrc : refCount (digGroupResult edges db k ns) kr.rowid =
      refCount (deleteFiles db k.1) kr.rowid +
      ((ns.map fun n => insertedNutRow edges db (deleteFiles db k.1).next_file_rowid n).filter
        fun nr => decide (nr.kind_codes_id = some kr.rowid)).length := by
    show (((deleteFiles db k.1).nuts ++
        ns.map fun n => insertedNutRow edges db (deleteFiles db k.1).next_file_rowid n).filter
        fun nr => decide (nr.kind_codes_id = some kr.rowid)).length = _
    rw [List.filter_append, List.length_append]
    rfl
  rw [hrc, hins]
  push_cast
  omega

theorem insert_fold_inversion (edges : List ℤ) (fid : ℕ) :
    ∀ (ns : List Nut) (db db' : DB),
    ns.foldlM (fun d n => insertNut edges d fid n) db = .ok db' →
    db' = { db with nuts := db.nuts ++ ns.map fun n => insertedNutRow edges db fid n } := by
  intro ns
  induction ns with
  | nil =>
    intro db db' h
    have he : db = db' := Except.ok.inj h
    rw [← he, List.map_nil, List.append_nil]
  | cons n ns ih =>
    intro db db' h
    rw [List.foldlM_cons] at h
    unfold insertNut at h
    by_cases hany : db.nuts.any fun nr => decide (nr.file_id = fid ∧
        nr.file_segment = n.file_segment ∧ nr.file_element = n.file_element)
    · rw [if_pos hany] at h
      exact Except.noConfusion
        (show (Except.error SqErr.integrityError : Except SqErr DB) = .ok db' from h)
    · rw [if_neg hany] at h
      have h' : ns.foldlM (fun d n => insertNut edges d fid n)
          { db with nuts := db.nuts ++ [insertedNutRow edges db fid n] } = .ok db' := h
      have h2 := ih { db with nuts := db.nuts ++ [insertedNutRow edges db fid n] } db' h'
      rw [h2]
      have hrow : ∀ m : Nut,
          insertedNutRow edges { db with nuts := db.nuts ++ [insertedNutRow edges db fid n] }
            fid m = insertedNutRow edges db fid m := fun m => rfl
      simp only [hrow]
      rw [List.append_assoc]
      rfl

theorem digGroup_ok_inversion (edges : List ℤ) (db : DB) (k : String × String × Option ℚ)
    (ns : List Nut) (d' : DB) (hinv : DBInv db)
    (h : digGroup edges db k ns = .ok d') : d' = digGroupResult edges db k ns := by
  rw [digGroup_eq_fold] at h
  have h2 := insert_fold_inversion edges (deleteFiles db k.1).next_file_rowid ns
    (digGroupMid db k) d' h
  rw [h2]
  unfold digGroupResult
  have hdf3 := (deleteFiles_spec db k.1 hinv.files_name_nodup hinv.files_id_nodup).2.2.1
  have hrw : ∀ n : Nut,
      insertedNutRow edges (digGroupMid db k) (deleteFiles db k.1).next_file_rowid n =
        insertedNutRow edges db (deleteFiles db k.1).next_file_rowid n := by
    intro n
    apply insertedNutRow_congr
    rw [digGroupMid_kcView, hdf3]
  rw [List.map_congr_left fun n _ => hrw n]

theorem groupsFold_inv (edges : List ℤ)
    (grps : List ((String × String × Option ℚ) × List Nut)) :
    ∀ d : DB, DBInv d →
    ∀ d', grps.foldlM (fun d g => digGroup edges d g.1 g.2) d = .ok d' → DBInv d' := by
  induction grps with
  | nil =>
    intro d hinv d' h
    have he : d = d' := Except.ok.inj h
    rw [← he]
    exact hinv
  | cons g rest ih =>
    intro d hinv d' h
    rw [List.foldlM_cons] at h
    cases hg : digGroup edges d g.1 g.2 with
    | error e =>
      rw [hg] at h
      exact Except.noConfusion (show (Except.error e : Except SqErr DB) = .ok d' from h)
    | ok d1 =>
      rw [hg] at h
      have hd1 : d1 = digGroupResult edges d g.1 g.2 :=
        digGroup_ok_inversion edges d g.1 g.2 d1 hinv hg
      have h' : rest.foldlM (fun d g => digGroup edges d g.1 g.2) d1 = .ok d' := h
      apply ih d1 ?_ d' h'
      rw [hd1]
      exact digGroupResult_inv edges d g.1 g.2 hinv

theorem dig_inv (edges : List ℤ) (db : DB) (c : List Nut) (hinv : DBInv db)
    (db' : DB) (h : dig edges db c = .ok db') : DBInv db' := by
  by_cases hc : c.isEmpty
  · unfold dig at h
    rw [if_pos hc] at h
    rw [← Except.ok.inj h]
    exact hinv
  · have hfalse : c.isEmpty = false := by
      revert hc
      cases c.isEmpty with
      | true => intro hc; exact absurd rfl hc
      | false => intro _; rfl
    have h' : (by_files c).foldlM (fun d g => digGroup edges d g.1 g.2)
        (digPrep db c) = .ok db' := by
      unfold dig at h
      rw [hfalse] at h
      exact h
    exact groupsFold_inv edges (by_files c) (digPrep db c) (digPrep_inv db c hinv) db' h'

theorem digPrep_pending (db : DB) (c : List Nut) (hinv : DBInv db) (hco : CountsOk db) :
    ∀ kr ∈ (digPrep db c).kind_codes, kr.count =
      (refCount (digPrep db c) kr.rowid : ℤ) + (countKeyNuts c (kr.kind, kr.codes) : ℤ) := by
  intro kr hkr
  obtain ⟨h1, h2, h3, h4, ext, h5, h6⟩ :=
    insertOrIgnoreKC_spec ((count_kind_codes c).map Prod.fst) db
  have hkr' : kr ∈ (count_kind_codes c).foldl (fun l kc => bumpCountStep kc.1 (kc.2 : ℤ) l)
      (insertOrIgnoreKC db ((count_kind_codes c).map Prod.fst)).kind_codes := by
    have h7 := hkr
    unfold digPrep at h7
    rw [foldBump_eq] at h7
    exact h7
  rw [foldBump_map] at hkr'
  obtain ⟨kr0, hkr0, he⟩ := List.mem_map.mp hkr'
  have hrowid : kr.rowid = kr0.rowid := by rw [← he]
  have hkind : kr.kind = kr0.kind := by rw [← he]
  have hcodes : kr.codes = kr0.codes := by rw [← he]
  have hcount : kr.count = kr0.count + sumMatch (count_kind_codes c) (kr0.kind, kr0.codes) := by
    rw [← he]
  rw [h5] at hkr0
  have hrcp : ∀ r, refCount (digPrep db c) r = refCount db r := by
    intro r
    unfold refCount
    rw [(digPrep_spec db c).2.1]
  have hbase : kr0.count = (refCount db kr0.rowid : ℤ) := by
    rcases List.mem_append.mp hkr0 with hold | hnew
    · exact hco kr0 hold
    · have h7 := h6 kr0 hnew
      rw [h7.2]
      have hzero : refCount db kr0.rowid = 0 := by
        unfold refCount
        rw [List.length_eq_zero, List.filter_eq_nil_iff]
        intro nr hnr
        simp only [decide_eq_true_eq]
        intro hc
        have h8 := hinv.nuts_kcid_lt nr hnr kr0.rowid hc
        have h9 := h7.1
        omega
      rw [hzero]
      rfl
  rw [hcount, hrowid, hkind, hcodes, hrcp, hbase, sumMatch_count_kind_codes]

theorem insertGroup_flat_perm {α : Type} [DecidableEq α]
    (acc : List (α × List Nut)) (k : α) (n : Nut) :
    ((insertGroup acc k n).flatMap Prod.snd).Perm (acc.flatMap Prod.snd ++ [n]) := by
  induction acc with
  | nil =>
    show ([(k, [n])].flatMap Prod.snd).Perm (([] : List (α × List Nut)).flatMap Prod.snd ++ [n])
    exact List.Perm.refl _
  | cons e rest ih =>
    obtain ⟨k', ns⟩ := e
    unfold insertGroup
    by_cases h : k' = k
    · rw [if_pos h, List.flatMap_cons, List.flatMap_cons]
      show ((ns ++ [n]) ++ rest.flatMap Prod.snd).Perm ((ns ++ rest.flatMap Prod.snd) ++ [n])
      rw [List.append_assoc, List.append_assoc]
      exact List.Perm.append_left ns List.perm_append_comm
    · rw [if_neg h, List.flatMap_cons, List.flatMap_cons]
      have h2 := List.Perm.append_left ns ih
      rw [List.append_assoc]
      exact h2

theorem foldGroups_flat_perm (c : List Nut) :
    ∀ acc : List ((String × String × Option ℚ) × List Nut),
    ((c.foldl (fun a n => insertGroup a (fileKey n) n) acc).flatMap Prod.snd).Perm
      (acc.flatMap Prod.snd ++ c) := by
  induction c with
  | nil =>
    intro acc
    rw [List.foldl_nil, List.append_nil]
  | cons n rest ih =>
    intro acc
    rw [List.foldl_cons]
    have h1 := ih (insertGroup acc (fileKey n) n)
    have h2 := (insertGroup_flat_perm acc (fileKey n) n).append_right rest
    have h3 := h1.trans h2
    have h4 : (acc.flatMap Prod.snd ++ [n]) ++ rest =
        acc.flatMap Prod.snd ++ (n :: rest) := by
      rw [List.append_assoc, List.singleton_append]
    rw [← h4]
    exact h3

theorem by_files_flat_perm (c : List Nut) : ((by_files c).flatMap Prod.snd).Perm c := by
  have h := foldGroups_flat_perm c []
  exact h

theorem groupsFold_counts (edges : List ℤ)
    (grps : List ((String × String × Option ℚ) × List Nut)) :
    ∀ d : DB, DBInv d →
    (∀ g ∈ grps, ∀ n ∈ g.2, kcHasKey d (kcKey n)) →
    (∀ kr ∈ d.kind_codes, kr.count = (refCount d kr.rowid : ℤ) +
      (countKeyNuts (grps.flatMap Prod.snd) (kr.kind, kr.codes) : ℤ)) →
    ∀ d', grps.foldlM (fun d g => digGroup edges d g.1 g.2) d = .ok d' → CountsOk d' := by
  induction grps with
  | nil =>
    intro d _ _ hcp d' hfold
    have he : d = d' := Except.ok.inj hfold
    rw [← he]
    intro kr hkr
    have h := hcp kr hkr
    have h0 : countKeyNuts (([] : List ((String × String × Option ℚ) × List Nut)).flatMap
        Prod.snd) (kr.kind, kr.codes) = 0 := rfl
    rw [h0] at h
    rw [h]
    push_cast
    ring
  | cons g rest ih =>
    intro d hinv hkeys hcp d' hfold
    rw [List.foldlM_cons] at hfold
    cases hg : digGroup edges d g.1 g.2 with
    | error e =>
      rw [hg] at hfold
      exact Except.noConfusion (show (Except.error e : Except SqErr DB) = .ok d' from hfold)
    | ok d1 =>
      rw [hg] at hfold
      have hd1 : d1 = digGroupResult edges d g.1 g.2 :=
        digGroup_ok_inversion edges d g.1 g.2 d1 hinv hg
      have hfold' : rest.foldlM (fun d g => digGroup edges d g.1 g.2) d1 = .ok d' := hfold
      rw [hd1] at hfold'
      have hview := digGroupResult_kcView edges d g.1 g.2 hinv
      apply ih (digGroupResult edges d g.1 g.2)
        (digGroupResult_inv edges d g.1 g.2 hinv)
        (fun g' hg' n hn => (kcHasKey_congr _ _ hview (kcKey n)).mpr
          (hkeys g' (List.mem_cons_of_mem g hg') n hn))
        ?_ d' hfold'
      intro kr hkr
      refine digGroupResult_pending edges d g.1 g.2
        (fun K => countKeyNuts (rest.flatMap Prod.snd) K) hinv
        (hkeys g (List.mem_cons_self g rest)) ?_ kr hkr
      intro kr0 hkr0
      have h := hcp kr0 hkr0
      rw [List.flatMap_cons, countKeyNuts_append] at h
      show kr0.count = (refCount d kr0.rowid : ℤ) +
        (countKeyNuts g.2 (kr0.kind, kr0.codes) : ℤ) +
        (countKeyNuts (rest.flatMap Prod.snd) (kr0.kind, kr0.codes) : ℤ)
      push_cast at h
      omega

theorem dig_counts (edges : List ℤ) (db : DB) (c : List Nut) (hinv : DBInv db)
    (hco : CountsOk db) (db' : DB) (h : dig edges db c = .ok db') : CountsOk db' := by
  by_cases hc : c.isEmpty
  · unfold dig at h
    rw [if_pos hc] at h
    rw [← Except.ok.inj h]
    exact hco
  · have hfalse : c.isEmpty = false := by
      revert hc
      cases c.isEmpty with
      | true => intro hc; exact absurd rfl hc
      | false => intro _; rfl
    have h' : (by_files c).foldlM (fun d g => digGroup edges d g.1 g.2)
        (digPrep db c) = .ok db' := by
      unfold dig at h
      rw [hfalse] at h
      exact h
    apply groupsFold_counts edges (by_files c) (digPrep db c) (digPrep_inv db c hinv)
      ?_ ?_ db' h'
    · intro g hg n hn
      exact digPrep_hasKeys db c n
        (List.mem_of_mem_filter (by rw [← by_files_bucket c g hg]; exact hn))
    · intro kr hkr
      have hp := digPrep_pending db c hinv hco kr hkr
      have hperm : ((by_files c).flatMap Prod.snd).Perm c := by_files_flat_perm c
      have hck : countKeyNuts ((by_files c).flatMap Prod.snd) (kr.kind, kr.codes) =
          countKeyNuts c (kr.kind, kr.codes) := by
        unfold countKeyNuts
        exact (hperm.filter _).length_eq
      rw [hck]
      exact hp

theorem digAll_counts (edges : List ℤ) (calls : List (List Nut)) :
    ∀ db : DB, DBInv db → CountsOk db →
    ∀ db', digAll edges db calls = .ok db' → CountsOk db' := by
  induction calls with
  | nil =>
    intro db _ hco db' h
    have he : db = db' := Except.ok.inj h
    rw [← he]
    exact hco
  | cons c rest ih =>
    intro db hinv hco db' h
    have h2 : (c :: rest).foldlM (fun d c => dig edges d c) db = .ok db' := h
    rw [List.foldlM_cons] at h2
    cases hd : dig edges db c with
    | error e =>
      rw [hd] at h2
      exact Except.noConfusion (show (Except.error e : Except SqErr DB) = .ok db' from h2)
    | ok d1 =>
      rw [hd] at h2
      have h' : digAll edges d1 rest = .ok db' := h2
      exact ih d1 (dig_inv edges db c hinv d1 hd) (dig_counts edges db c hinv hco d1 hd) db' h'

/-- C7: after any successful sequence of `Database.dig` calls starting from a
freshly opened store, every `kind_codes` row's `count` equals the number of
nuts rows whose `kind_codes_id` references that row — the `INSERT OR IGNORE`
plus count-update phase of each `dig` pre-increments by the number of nuts
about to reference each key, and the `delete_nuts`/`decrement_kind_codes`
triggers decrement once per removed owning nut. -/
theorem kind_codes_counts_match_references (edges : List ℤ) (calls : List (List Nut))
    (db : DB) (h : digAll edges emptyDB calls = .ok db) : CountsOk db :=
  digAll_counts edges calls emptyDB emptyDB_inv
    (fun kr hkr => absurd hkr (List.not_mem_nil kr)) db h

theorem kind_codes_counts_match_references_witness :
    digAll exEdges emptyDB exCallsAB = .ok exDBab ∧ CountsOk exDBab :=
  ⟨by with_unfolding_all rfl,
   kind_codes_counts_match_references exEdges exCallsAB exDBab (by with_unfolding_all rfl)⟩

end SquirrelDB
